import Mathlib

/-!
Verification development for the thesis data-pipeline repository.

Each definition below is a shallow embedding of a routine from the
repository's Python sources; file and function names are recorded next to
each definition.  Strings are modelled with Lean `String`/`List Char`
(Python indexes strings by code point, matching `List Char` positions),
Python `None`-able values with `Option`, JSON dictionaries with
association lists carrying Python-dict update semantics (updating an
existing key keeps its position, a fresh key is appended at the end).
-/

namespace Thesis

/-! ## Association-list dictionaries (Python `dict` semantics) -/
/-- Lookup by key, first match (Python dict keys are unique). -/
def alookup {α β : Type} [DecidableEq α] : List (α × β) → α → Option β
  | [], _ => none
  | (a, b) :: t, k => if a = k then some b else alookup t k

/-- Python `d[k] = v`: update the key in place if it exists, else append
at the end (dict insertion order). -/
def dictSet {α β : Type} [DecidableEq α] : List (α × β) → α → β → List (α × β)
  | [], k, v => [(k, v)]
  | (a, b) :: t, k, v => if a = k then (k, v) :: t else (a, b) :: dictSet t k v

/-- The key list of a dictionary. -/
def dkeys {α β : Type} (m : List (α × β)) : List α := m.map Prod.fst

/-! ## Python string primitives on `List Char` -/
/-- ASCII lowercasing of one character (Python `str.lower`; every string
literal this pipeline compares against is ASCII). -/
def lowerChar (c : Char) : Char :=
  if 'A' ≤ c ∧ c ≤ 'Z' then Char.ofNat (c.toNat + 32) else c

/-- Python `str.lower` on a code-point list. -/
def pyLower (s : List Char) : List Char := s.map lowerChar

/-- Python `str.strip()` default whitespace characters. -/
def isPySpace (c : Char) : Bool :=
  c = ' ' ∨ c = '\t' ∨ c = '\n' ∨ c = '\r' ∨ c = '\x0b' ∨ c = '\x0c'

/-- Python `str.strip()` on a code-point list. -/
def pyStrip (s : List Char) : List Char :=
  ((s.dropWhile isPySpace).reverse.dropWhile isPySpace).reverse

/-- Python `s.split("-")` on a code-point list. -/
def splitDash : List Char → List (List Char)
  | [] => [[]]
  | c :: t =>
    if c = '-' then [] :: splitDash t
    else
      match splitDash t with
      | [] => [[c]]
      | p :: ps => (c :: p) :: ps

/-- Python `"-".join(parts)` on code-point lists. -/
def joinDash : List (List Char) → List Char
  | [] => []
  | [p] => p
  | p :: ps => p ++ '-' :: joinDash ps

/-! ## validate_ai_requirements_batch.py: label normalization in `fetch` -/
/-- A JSON value as far as the label normalization is concerned.  `num`
stands in for any JSON value that is neither a bool nor a string. -/
inductive JVal where
  | bool (b : Bool)
  | str (s : List Char)
  | num (n : Int)
  | null
deriving DecidableEq

/-- The `ar` value after the `isinstance` dispatch (lines 397-407),
before the final membership guard. -/
def rawLabel (v : Option JVal) : String :=
  match v with
  | some (.bool true) => "True"
  | some (.bool false) => "False"
  | some (.str s) =>
    let w := pyLower (pyStrip s)
    if w = "true".data ∨ w = "t".data ∨ w = "yes".data then "True"
    else if w = "false".data ∨ w = "f".data ∨ w = "no".data then "False"
    else if w = "maybe".data then "Maybe"
    else String.mk (pyStrip s)
  | _ => "False"

/-- Normalization of the parsed `ai_requirement` value in `fetch`
(validate_ai_requirements_batch.py, lines 396-409).  The argument is
`parsed.get("ai_requirement")`: `none` models a missing key, `JVal.str`
carries the string's code points.  The final line is the guard
`if ar not in ("True", "Maybe", "False"): ar = "False"`. -/
def normalize_ai_requirement (v : Option JVal) : String :=
  let ar := rawLabel v
  if ar = "True" ∨ ar = "Maybe" ∨ ar = "False" then ar else "False"

/-! ## Batch fetch: `output_file_id` polling -/
/-- The retry loop of `fetch` in validate_ai_requirements_batch.py
(lines 347-354): while `output_file_id` is falsy and fewer than 200
retry attempts were made, sleep 3 seconds and retrieve the batch again.
`f i` is the `output_file_id` returned by the `i`-th retrieve call
(`none` models a falsy value); the state is (current id, attempts); the
fuel argument only witnesses termination and is chosen large enough to
never run out before the `attempts < 200` guard stops the loop. -/
def requirementsPoll (f : Nat → Option String) :
    Option String → Nat → Nat → Option String × Nat
  | some s, a, _ => (some s, a)
  | none, a, 0 => (none, a)
  | none, a, fuel + 1 =>
    if a < 200 then requirementsPoll f (f (a + 1)) (a + 1) fuel else (none, a)

/-- validate_ai_requirements_batch.py `fetch`, lines 342-356: the search
for an `output_file_id` after status `completed`, ending in the id found
or in `SystemExit("No output_file_id")`. -/
def requirements_fetch_output (f : Nat → Option String) : Except String String :=
  match requirementsPoll f (f 0) 0 200 with
  | (some s, _) => Except.ok s
  | (none, _) => Except.error "No output_file_id"

/-- validate_ai_mentions_batch.py `fetch_results` (lines 148-154): the
`output_file_id` of the single retrieve call is checked once and a falsy
value aborts immediately, with no retry. -/
def mentions_fetch_output (f : Nat → Option String) : Except String String :=
  match f 0 with
  | some s => Except.ok s
  | none => Except.error "No output_file_id on batch"

/-- A batch whose `output_file_id` lags one poll behind `completed`. -/
def lagOutputFile : Nat → Option String :=
  fun i => if i = 0 then none else some "file-1"

/-! ## create_final_dataset.py: AI-requirement lookup and row assembly -/
/-- First candidate with a hit in the label map (the early `return`s in
`lookup_ai_requirement`). -/
def firstHit (ai_map : List (List Char × String)) :
    List (List Char) → Option String
  | [] => none
  | c :: cs =>
    match alookup ai_map c with
    | some v => some v
    | none => firstHit ai_map cs

/-- The truncated candidate identifiers tried by `lookup_ai_requirement`
(create_final_dataset.py, lines 148-153): `"-".join(parts[:-cut])` for
`cut in range(1, min(3, len(parts)))`. -/
def truncCandidates (ad_id : List Char) : List (List Char) :=
  (List.range' 1 (min 3 (splitDash ad_id).length - 1)).map
    (fun cut => joinDash ((splitDash ad_id).take ((splitDash ad_id).length - cut)))

/-- create_final_dataset.py `lookup_ai_requirement` (lines 144-154). -/
def lookup_ai_requirement (ai_map : List (List Char × String))
    (ad_id : List Char) : Option String :=
  match alookup ai_map ad_id with
  | some v => some v
  | none => firstHit ai_map (truncCandidates ad_id)

/-- A base posting record as far as the assembly loop looks at it:
`ad_id` is `record.get("adve_iden_sjob")` and `year` is the result of
`extract_year(record)` (whose internal field/identifier parsing is not
itself under claim here). -/
structure BaseRecord where
  ad_id : Option (List Char)
  year : Option Int
deriving DecidableEq

/-- A row of the final analysis dataset (the fields the claims are
about). -/
structure Row where
  ad_id : List Char
  year : Int
  aiReq : Option String
deriving DecidableEq

/-- One iteration of the record loop in `main` of
create_final_dataset.py (lines 163-187): `continue` on a year outside
[2010, 2024] or a falsy `adve_iden_sjob`, otherwise build the row,
attaching the `lookup_ai_requirement` label (possibly `none`). -/
def assembleRow (ai_map : List (List Char × String)) (rec : BaseRecord) :
    Option Row :=
  match rec.year with
  | none => none
  | some y =>
    if y < 2010 ∨ 2024 < y then none
    else
      match rec.ad_id with
      | none => none
      | some aid =>
        if aid = [] then none
        else some { ad_id := aid, year := y,
                    aiReq := lookup_ai_requirement ai_map aid }

/-- The record loop of `main` over all base records. -/
def processRecords (records : List BaseRecord)
    (ai_map : List (List Char × String)) : List Row :=
  records.filterMap (assembleRow ai_map)

/-! ## detect_ai_mentions_fulltext.py: pattern variants and scanner

The scanner works on code-point lists.  Only the abbreviation branch of
`compile_patterns` (lines 49-58) is modelled, since every claim about
patterns concerns the keywords AI / KI / LLM; the generic emit/dedup
machinery is parametric in the matcher list. -/
/-- The six Unicode dash variants replaced by
`find_matches_with_context` (lines 84-91). -/
def dashVariants : List Char :=
  ['‐', '‑', '‒', '–', '—', '−']

/-- One Python `str.replace(a, b)` with single-character arguments. -/
def replaceChar (a b : Char) (t : List Char) : List Char :=
  t.map (fun c => if c = a then b else c)

/-- The chained dash normalization at the top of
`find_matches_with_context` (lines 84-91), replace by replace as in the
source. -/
def normalizeDashes (t : List Char) : List Char :=
  replaceChar '−' '-' (replaceChar '—' '-' (replaceChar '–' '-'
    (replaceChar '‒' '-' (replaceChar '‑' '-'
      (replaceChar '‐' '-' t)))))

/-- Normalization of a single character: each of the six dash variants
becomes an ASCII hyphen, everything else is unchanged. -/
def normChar (c : Char) : Char := if c ∈ dashVariants then '-' else c

/-- Python `\w` (`re.UNICODE`) restricted to the Latin repertoire this
corpus uses: ASCII alphanumerics, underscore, and the Latin-1 /
Latin-Extended-A/B letters U+00C0-U+024F minus the two non-letters
U+00D7 and U+00F7. -/
def isWordChar (c : Char) : Bool :=
  c.isAlphanum || c == '_' ||
    (decide (0xC0 ≤ c.toNat) && decide (c.toNat ≤ 0x24F) &&
      c.toNat != 0xD7 && c.toNat != 0xF7)

/-- A compiled regex variant, as a function from the text and a start
position to the end position of a match starting exactly there. -/
abbrev Matcher := List Char → Nat → Option Nat

/-- Whether position `i` holds a word character (out of range: no). -/
def wordCharAt (t : List Char) (i : Nat) : Bool :=
  match t[i]? with
  | some c => isWordChar c
  | none => false

/-- The lookbehind `(?<!\w)` at position `i`. -/
def prevOk (t : List Char) (i : Nat) : Bool :=
  decide (i = 0) || !wordCharAt t (i - 1)

/-- Whether the keyword's code points occur verbatim at position `i`. -/
def sliceEq (t : List Char) (i : Nat) (kw : List Char) : Bool :=
  (t.drop i).take kw.length == kw

/-- `(?<!\w)KW(?!\w)`: the case-sensitive standalone variant (line 51). -/
def matchStandalone (kw : List Char) : Matcher := fun t i =>
  if prevOk t i && sliceEq t i kw && !wordCharAt t (i + kw.length) then
    some (i + kw.length)
  else none

/-- The character class `[-HYPHENS/]` of the compound variant: ASCII
hyphen, the six dash variants, and a slash (lines 20 and 53). -/
def hyphenSlashChars : List Char :=
  '-' :: dashVariants ++ ['/']

/-- `(?<!\w)KW(?=[HYPHENS/])`: the hyphen/slash compound variant
(line 53). -/
def matchCompound (kw : List Char) : Matcher := fun t i =>
  if prevOk t i && sliceEq t i kw &&
      (match t[i + kw.length]? with
       | some c => hyphenSlashChars.contains c
       | none => false) then
    some (i + kw.length)
  else none

/-- The character class `[a-zäöüß]` (line 44). -/
def isLowerCont (c : Char) : Bool :=
  (decide ('a' ≤ c) && decide (c ≤ 'z')) || ['ä', 'ö', 'ü', 'ß'].contains c

/-- `(?<!\w)KW(?=[a-zäöüß])`: the lowercase continuation variant
(line 55). -/
def matchLowerCont (kw : List Char) : Matcher := fun t i =>
  if prevOk t i && sliceEq t i kw &&
      (match t[i + kw.length]? with
       | some c => isLowerCont c
       | none => false) then
    some (i + kw.length)
  else none

/-- The ASCII apostrophe. -/
def apos : Char := Char.ofNat 39

/-- `(?<!\w)KW(?:s\b|['’]s\b)`: the plural/apostrophe variant added for
LLM (line 58); the alternation tries the bare `s` first. -/
def matchPlural (kw : List Char) : Matcher := fun t i =>
  if prevOk t i && sliceEq t i kw then
    if t[i + kw.length]? == some 's' && !wordCharAt t (i + kw.length + 1) then
      some (i + kw.length + 1)
    else if (t[i + kw.length]? == some apos || t[i + kw.length]? == some '’') &&
        t[i + kw.length + 1]? == some 's' &&
        !wordCharAt t (i + kw.length + 2) then
      some (i + kw.length + 2)
    else none
  else none

/-- The ordered variant list `compile_patterns` builds for an
abbreviation keyword (AI / KI / LLM), lines 49-58. -/
def abbrevPatterns (kw : List Char) : List Matcher :=
  [matchStandalone kw, matchCompound kw, matchLowerCont kw] ++
    (if kw = "LLM".data then [matchPlural kw] else [])

/-- The ASCII uppercase letters (the alphabet of "a longer uppercase
word" in the claims about AI / KI / LLM). -/
def upperAscii : List Char :=
  ['A', 'B', 'C', 'D', 'E', 'F', 'G', 'H', 'I', 'J', 'K', 'L', 'M',
   'N', 'O', 'P', 'Q', 'R', 'S', 'T', 'U', 'V', 'W', 'X', 'Y', 'Z']

/-- `re.finditer` for a matcher: scan left to right, emit the span of
each non-overlapping match, resume after a match's end.  The fuel only
witnesses termination; `finditer` supplies enough for the whole text. -/
def finditerAux (m : Matcher) (t : List Char) : Nat → Nat → List (Nat × Nat)
  | _, 0 => []
  | i, fuel + 1 =>
    if t.length ≤ i then []
    else
      match m t i with
      | some e => (i, e) :: finditerAux m t (max e (i + 1)) fuel
      | none => finditerAux m t (i + 1) fuel

def finditer (m : Matcher) (t : List Char) : List (Nat × Nat) :=
  finditerAux m t 0 (t.length + 1)

/-- The span dedup inside `find_matches_with_context` (lines 94-100):
walk the span list, skip spans already seen, record and emit the rest.
Returns the grown `seen` set and the emitted spans in order. -/
def dedupSpans (seen : List (Nat × Nat)) :
    List (Nat × Nat) → List (Nat × Nat) × List (Nat × Nat)
  | [] => (seen, [])
  | s :: ss =>
    if s ∈ seen then dedupSpans seen ss
    else
      let d := dedupSpans (s :: seen) ss
      (d.1, s :: d.2)

/-- The per-keyword loop over pattern variants: one shared `seen` set,
spans emitted pattern by pattern in `finditer` order. -/
def emitSpansFrom (norm : List Char) (seen : List (Nat × Nat)) :
    List Matcher → List (Nat × Nat)
  | [] => []
  | p :: ps =>
    let d := dedupSpans seen (finditer p norm)
    d.2 ++ emitSpansFrom norm d.1 ps

/-- All spans emitted for one keyword's pattern list (`seen` starts
empty for each keyword). -/
def emitSpans (pats : List Matcher) (norm : List Char) : List (Nat × Nat) :=
  emitSpansFrom norm [] pats

/-- One match record (keyword/folder/text as in lines 104-108). -/
structure MatchRec where
  keyword : String
  folder : String
  text : List Char
deriving DecidableEq

/-- The record built for an emitted span (lines 101-108): context is cut
from the original, unnormalized text. -/
def mkMatchRec (kw : String) (t : List Char) (ctx a b : Nat) : MatchRec :=
  { keyword := kw, folder := "fulltext",
    text := (t.take a).drop (a - ctx) ++
      '«' :: ((t.drop a).take (b - a) ++ '»' :: (t.drop b).take ctx) }

/-- detect_ai_mentions_fulltext.py `find_matches_with_context`
(lines 82-109). -/
def find_matches_with_context (t : List Char)
    (patterns : List (String × List Matcher)) (ctx : Nat) : List MatchRec :=
  let norm := normalizeDashes t
  patterns.flatMap (fun pk =>
    (emitSpans pk.2 norm).map (fun s => mkMatchRec pk.1 t ctx s.1 s.2))

/-! ## validate_ai_requirements_batch.py: `integrate` (lines 420-477)

The aggregated results file is a JSON object `year -> ad_id -> record`;
its year keys are the decimal strings produced by `str(year)` and are in
bijection with their integer values, so years are modelled as `Int`
keys directly. -/
/-- The value stored for one ad by `integrate`. -/
structure RRec where
  ai_requirement : String
  reason : String
  keywords : List String
deriving DecidableEq

/-- One parsed result row returned by `fetch` (the fields `integrate`
reads). -/
structure FetchResult where
  ad_id : String
  year : Option Int
  ai_requirement : String
  reason : String
  keywords : List String
deriving DecidableEq

/-- The aggregated per-year results file. -/
abbrev AggFile := List (Int × List (String × RRec))

/-- `{"ai_requirement": r.get("ai_requirement") or "False", ...}`:
the record written per ad ("" plays Python's falsy role). -/
def mkRRec (r : FetchResult) : RRec :=
  { ai_requirement := if r.ai_requirement = "" then "False" else r.ai_requirement,
    reason := r.reason,
    keywords := r.keywords }

/-- The `r_index` built at lines 437-441: last result per truthy ad id
wins. -/
def buildRIndex (results : List FetchResult) : List (String × FetchResult) :=
  results.foldl (fun m r => if r.ad_id = "" then m else dictSet m r.ad_id r) []

/-- The year-range filter (`continue` at lines 444-447 and 466-469). -/
def inRange (sy ey : Option Int) (y : Int) : Bool :=
  (match sy with
   | some s => decide (s ≤ y)
   | none => true) &&
  (match ey with
   | some e => decide (y ≤ e)
   | none => true)

/-- One year of the `matches` branch (lines 448-458): update the year's
dict for every listed ad that has a fetched result, write it back only
if non-empty. -/
def integrateYearStep (r_index : List (String × FetchResult)) (out : AggFile)
    (yi : Int) (ads : List String) : AggFile :=
  let out_ads := ads.foldl (fun oa ad_id =>
      match alookup r_index ad_id with
      | some r => dictSet oa ad_id (mkRRec r)
      | none => oa) ((alookup out yi).getD [])
  if out_ads.isEmpty then out else dictSet out yi out_ads

/-- One iteration of the year loop of the `matches` branch: the year
filter, then the year step. -/
def matchesStep (r_index : List (String × FetchResult)) (sy ey : Option Int)
    (out : AggFile) (m : Int × List String) : AggFile :=
  if inRange sy ey m.1 then integrateYearStep r_index out m.1 m.2 else out

/-- The `population == "matches"` branch of `integrate` (lines 432-458);
`matchIndex` is the keyword-match index restricted to its year keys and
per-year ad-id key lists. -/
def integrateMatches (results : List FetchResult)
    (matchIndex : List (Int × List String)) (sy ey : Option Int)
    (out0 : AggFile) : AggFile :=
  matchIndex.foldl (matchesStep (buildRIndex results) sy ey) out0

/-- One result of the `population == "all"` branch (lines 460-475). -/
def integrateAllStep (sy ey : Option Int) (out : AggFile) (r : FetchResult) :
    AggFile :=
  match r.year with
  | none => out
  | some y =>
    if r.ad_id = "" then out
    else if inRange sy ey y then
      dictSet out y (dictSet ((alookup out y).getD []) r.ad_id (mkRRec r))
    else out

/-- The `population == "all"` branch of `integrate`. -/
def integrateAll (results : List FetchResult) (sy ey : Option Int)
    (out0 : AggFile) : AggFile :=
  results.foldl (integrateAllStep sy ey) out0

/-- The two populations `integrate` dispatches on. -/
inductive Population where
  | matchesPop
  | allPop
deriving DecidableEq

/-- validate_ai_requirements_batch.py `integrate` (lines 420-477), both
branches. -/
def integrate (pop : Population) (results : List FetchResult)
    (matchIndex : List (Int × List String)) (sy ey : Option Int)
    (out0 : AggFile) : AggFile :=
  match pop with
  | .matchesPop => integrateMatches results matchIndex sy ey out0
  | .allPop => integrateAll results sy ey out0

/-- A sequence of dict assignments applied in order (used to
characterize the inner per-year folds of `integrate`). -/
def applyInner {α β : Type} [DecidableEq α] (σ : List (α × β))
    (x : List (α × β)) : List (α × β) :=
  σ.foldl (fun oa a => dictSet oa a.1 a.2) x

/-- The (ad, record) assignments a year's `matches`-branch step makes. -/
def yearHits (r_index : List (String × FetchResult)) (ads : List String) :
    List (String × RRec) :=
  ads.filterMap (fun ad => (alookup r_index ad).map (fun r => (ad, mkRRec r)))

/-- The value the aggregated file holds at a processed year key after
one `matches`-branch year step (used to characterize `integrate`). -/
def yearResult (r_index : List (String × FetchResult)) (out : AggFile)
    (y : Int) (ads : List String) : Option (List (String × RRec)) :=
  if (applyInner (yearHits r_index ads) ((alookup out y).getD [])).isEmpty
  then alookup out y
  else some (applyInner (yearHits r_index ads) ((alookup out y).getD []))

/-- The (ad, record) assignments the `all` branch makes for year `y`, in
result order. -/
def allHits (results : List FetchResult) (sy ey : Option Int) (y : Int) :
    List (String × RRec) :=
  results.filterMap (fun r =>
    match r.year with
    | some y' =>
      if y' = y ∧ r.ad_id ≠ "" ∧ inRange sy ey y' then
        some (r.ad_id, mkRRec r)
      else none
    | none => none)

/-! ## build_exposure_assets.py: occupation lookup and gap report -/
/-- One cleaned row of the SOC-ISCO crosswalk (lines 75-84): SOC code,
ISCO code, and whether the `part` column holds `*`. -/
structure CWRow where
  soc : String
  isco : String
  part : Bool
deriving DecidableEq

/-- String insertion used by the sort below. -/
def insertSorted (a : String) : List String → List String
  | [] => [a]
  | b :: bs => if decide (a ≤ b) then a :: b :: bs else b :: insertSorted a bs

/-- Ascending sort of strings (Python `sorted`). -/
def sortStrings (l : List String) : List String := l.foldr insertSorted []

/-- Python `sorted(set(...))`. -/
def sortedUnique (l : List String) : List String := sortStrings l.dedup

/-- What `summarise` (lines 93-107) records per ISCO group.  The
exposure table is `(SOC code, AIOE)` rows after `to_numeric(...,
errors="coerce")`: `none` is a NaN. -/
structure OccEntry where
  aioe : Option ℚ
  soc_codes : List String
  matched_soc_codes : List String
  missing_soc_codes : List String
  part_mapping_count : Nat
deriving DecidableEq

/-- The rows of the left merge (lines 86-91) restricted to one ISCO
group: each crosswalk row joined with every exposure row of its SOC
code, or with a single NaN if the SOC code is absent. -/
def mergedGroup (expo : List (String × Option ℚ)) (group : List CWRow) :
    List (String × Option ℚ) :=
  group.flatMap (fun r =>
    let es := expo.filter (fun e => e.1 == r.soc)
    if es.isEmpty then [(r.soc, (none : Option ℚ))]
    else es.map (fun e => (r.soc, e.2)))

/-- The `available` rows of a group: merged rows with a non-NaN AIOE
(the `dropna` at line 95). -/
def availRows (expo : List (String × Option ℚ)) (group : List CWRow) :
    List (String × Option ℚ) :=
  (mergedGroup expo group).filter (fun p => p.2.isSome)

/-- build_exposure_assets.py `summarise` (lines 93-107) applied to one
ISCO group.  `missing_soc_codes` is the sorted set difference, computed
here by filtering the sorted `soc_codes`. -/
def summariseISCO (expo : List (String × Option ℚ)) (group : List CWRow) :
    OccEntry :=
  { aioe :=
      if (availRows expo group).isEmpty then none
      else some (((availRows expo group).map (fun p => p.2.getD 0)).sum /
        (availRows expo group).length),
    soc_codes := sortedUnique (group.map (fun r => r.soc)),
    matched_soc_codes := sortedUnique ((availRows expo group).map Prod.fst),
    missing_soc_codes := (sortedUnique (group.map (fun r => r.soc))).filter
      (fun s =>
        !((sortedUnique ((availRows expo group).map Prod.fst)).contains s)),
    part_mapping_count := (group.filter (fun r => r.part)).length }

/-- The groupby-apply of `build_occupation_lookup` (line 109) seen from
one ISCO key: its `occupation_df` row, or `none` if the crosswalk has no
row for this ISCO code. -/
def occEntryFor (crosswalk : List CWRow) (expo : List (String × Option ℚ))
    (isco : String) : Option OccEntry :=
  let group := crosswalk.filter (fun r => r.isco == isco)
  if group.isEmpty then none else some (summariseISCO expo group)

/-- The `occ_missing` gap map (lines 112-114), which `main` writes into
`exposure_gaps.json` under
`lookup_gaps.occupation_soc_missing_exposure` (lines 496-508): one entry
per ISCO code with a non-empty missing list. -/
def occGapFor (crosswalk : List CWRow) (expo : List (String × Option ℚ))
    (isco : String) : Option (List String) :=
  match occEntryFor crosswalk expo isco with
  | some e => if e.missing_soc_codes.isEmpty then none else some e.missing_soc_codes
  | none => none

@[simp] theorem alookup_nil {α β : Type} [DecidableEq α] (k : α) :
    alookup ([] : List (α × β)) k = none := rfl

@[simp] theorem alookup_cons {α β : Type} [DecidableEq α] (a : α) (b : β)
    (t : List (α × β)) (k : α) :
    alookup ((a, b) :: t) k = if a = k then some b else alookup t k := rfl

@[simp] theorem dkeys_nil {α β : Type} : dkeys ([] : List (α × β)) = [] := rfl

@[simp] theorem dkeys_cons {α β : Type} (a : α) (b : β) (t : List (α × β)) :
    dkeys ((a, b) :: t) = a :: dkeys t := rfl

theorem dictSet_nil {α β : Type} [DecidableEq α] (k : α) (v : β) :
    dictSet ([] : List (α × β)) k v = [(k, v)] := rfl

theorem dictSet_cons_self {α β : Type} [DecidableEq α] (k : α) (b v : β)
    (t : List (α × β)) : dictSet ((k, b) :: t) k v = (k, v) :: t := by
  simp [dictSet]

theorem dictSet_cons_ne {α β : Type} [DecidableEq α] (a k : α) (b v : β)
    (t : List (α × β)) (h : a ≠ k) :
    dictSet ((a, b) :: t) k v = (a, b) :: dictSet t k v := by
  simp [dictSet, h]

theorem alookup_dictSet {α β : Type} [DecidableEq α] (m : List (α × β))
    (k k' : α) (v : β) :
    alookup (dictSet m k v) k' = if k' = k then some v else alookup m k' := by
  induction m with
  | nil =>
    rw [dictSet_nil]
    by_cases hk : k' = k
    · simp [hk]
    · simp [hk, Ne.symm hk]
  | cons p t ih =>
    obtain ⟨a, b⟩ := p
    by_cases ha : a = k
    · subst ha
      rw [dictSet_cons_self]
      by_cases hk : k' = a
      · simp [hk]
      · simp [hk, Ne.symm hk]
    · rw [dictSet_cons_ne a k b v t ha]
      by_cases ha' : a = k'
      · have hk : ¬ k' = k := fun h => ha (h ▸ ha')
        simp [ha', hk]
      · simp [ha', ih]

theorem dkeys_dictSet_of_mem {α β : Type} [DecidableEq α] (m : List (α × β))
    (k : α) (v : β) (h : k ∈ dkeys m) : dkeys (dictSet m k v) = dkeys m := by
  induction m with
  | nil => simp at h
  | cons p t ih =>
    obtain ⟨a, b⟩ := p
    by_cases ha : a = k
    · subst ha
      rw [dictSet_cons_self]
      simp
    · rw [dictSet_cons_ne a k b v t ha]
      simp only [dkeys_cons, List.mem_cons] at h
      rcases h with h | h
      · exact absurd h.symm ha
      · simp [ih h]

theorem mem_dkeys_dictSet {α β : Type} [DecidableEq α] (m : List (α × β))
    (k : α) (v : β) : k ∈ dkeys (dictSet m k v) := by
  induction m with
  | nil => simp [dictSet_nil]
  | cons p t ih =>
    obtain ⟨a, b⟩ := p
    by_cases ha : a = k
    · subst ha
      rw [dictSet_cons_self]
      simp
    · rw [dictSet_cons_ne a k b v t ha]
      simp [ih]

theorem mem_dkeys_dictSet_of_mem {α β : Type} [DecidableEq α] (m : List (α × β))
    (k k' : α) (v : β) (h : k' ∈ dkeys m) : k' ∈ dkeys (dictSet m k v) := by
  induction m with
  | nil => simp at h
  | cons p t ih =>
    obtain ⟨a, b⟩ := p
    simp only [dkeys_cons, List.mem_cons] at h
    by_cases ha : a = k
    · subst ha
      rw [dictSet_cons_self]
      rcases h with h | h
      · simp [h]
      · simp [h]
    · rw [dictSet_cons_ne a k b v t ha]
      rcases h with h | h
      · simp [h]
      · simp [ih h]

/-- Keys of `dictSet` are contained in the old keys plus the new key. -/
theorem dkeys_dictSet_subset {α β : Type} [DecidableEq α] (m : List (α × β))
    (k k' : α) (v : β) (h : k' ∈ dkeys (dictSet m k v)) :
    k' ∈ dkeys m ∨ k' = k := by
  induction m with
  | nil =>
    rw [dictSet_nil] at h
    simp at h
    simp [h]
  | cons p t ih =>
    obtain ⟨a, b⟩ := p
    by_cases ha : a = k
    · subst ha
      rw [dictSet_cons_self] at h
      simp only [dkeys_cons, List.mem_cons] at h ⊢
      rcases h with h | h
      · exact Or.inr h
      · exact Or.inl (Or.inr h)
    · rw [dictSet_cons_ne a k b v t ha] at h
      simp only [dkeys_cons, List.mem_cons] at h ⊢
      rcases h with h | h
      · exact Or.inl (Or.inl h)
      · rcases ih h with h' | h'
        · exact Or.inl (Or.inr h')
        · exact Or.inr h'

theorem nodup_dkeys_dictSet {α β : Type} [DecidableEq α] (m : List (α × β))
    (k : α) (v : β) (h : (dkeys m).Nodup) : (dkeys (dictSet m k v)).Nodup := by
  induction m with
  | nil => simp [dictSet_nil]
  | cons p t ih =>
    obtain ⟨a, b⟩ := p
    simp only [dkeys_cons, List.nodup_cons] at h
    by_cases ha : a = k
    · subst ha
      rw [dictSet_cons_self]
      simp only [dkeys_cons, List.nodup_cons]
      exact h
    · rw [dictSet_cons_ne a k b v t ha]
      simp only [dkeys_cons, List.nodup_cons]
      refine ⟨?_, ih h.2⟩
      intro hmem
      rcases dkeys_dictSet_subset t k a v hmem with h' | h'
      · exact h.1 h'
      · exact ha h'

/-- If the key is present with exactly this value, `dictSet` is the
identity (first occurrence decides, as in a duplicate-free dict). -/
theorem dictSet_eq_self {α β : Type} [DecidableEq α] (m : List (α × β))
    (k : α) (v : β) (h : alookup m k = some v) : dictSet m k v = m := by
  induction m with
  | nil => simp at h
  | cons p t ih =>
    obtain ⟨a, b⟩ := p
    by_cases ha : a = k
    · subst ha
      simp only [alookup_cons, if_pos rfl, Option.some.injEq] at h
      simp only [eq_self_iff_true, if_true, Option.some.injEq] at h
      rw [dictSet_cons_self, h]
    · simp only [alookup_cons, ha, if_false] at h
      rw [dictSet_cons_ne a k b v t ha, ih h]

/-- A `some` lookup means the key occurs in the key list. -/
theorem alookup_mem_dkeys {α β : Type} [DecidableEq α] (m : List (α × β))
    (k : α) (v : β) (h : alookup m k = some v) : k ∈ dkeys m := by
  induction m with
  | nil => simp at h
  | cons p t ih =>
    obtain ⟨a, b⟩ := p
    by_cases ha : a = k
    · simp [ha]
    · simp only [alookup_cons, ha, if_false] at h
      simp [ih h]

/-- A key that is not in the key list looks up to `none`. -/
theorem alookup_eq_none_of_not_mem {α β : Type} [DecidableEq α]
    (m : List (α × β)) (k : α) (h : k ∉ dkeys m) : alookup m k = none := by
  cases he : alookup m k with
  | none => rfl
  | some v => exact absurd (alookup_mem_dkeys m k v he) h

/-- Association lists with equal (ordered) key lists, nodup keys and equal
lookups are equal. -/
theorem alookup_ext {α β : Type} [DecidableEq α] (m m' : List (α × β))
    (hk : dkeys m = dkeys m') (hnd : (dkeys m).Nodup)
    (h : ∀ k, alookup m k = alookup m' k) : m = m' := by
  induction m generalizing m' with
  | nil =>
    cases m' with
    | nil => rfl
    | cons q t' => simp [dkeys] at hk
  | cons p t ih =>
    cases m' with
    | nil => simp [dkeys] at hk
    | cons q t' =>
      obtain ⟨a, b⟩ := p
      obtain ⟨c, d⟩ := q
      simp only [dkeys_cons, List.cons.injEq] at hk
      simp only [dkeys_cons, List.nodup_cons] at hnd
      obtain ⟨hac, hkt⟩ := hk
      subst hac
      have hb : b = d := by
        have := h a
        simp at this
        exact this
      subst hb
      congr 1
      apply ih t' hkt hnd.2
      intro k
      by_cases hka : k = a
      · subst hka
        have h1 : alookup t k = none :=
          alookup_eq_none_of_not_mem t k hnd.1
        have h2 : alookup t' k = none :=
          alookup_eq_none_of_not_mem t' k (hkt ▸ hnd.1)
        rw [h1, h2]
      · have := h k
        simp only [alookup_cons, if_neg (Ne.symm hka)] at this
        exact this

/-! ## Helper lemmas: label normalization -/
theorem normalize_eq_guard (v : Option JVal) :
    normalize_ai_requirement v =
      if rawLabel v = "True" ∨ rawLabel v = "Maybe" ∨ rawLabel v = "False"
      then rawLabel v else "False" := rfl

theorem rawLabel_str (s : List Char) :
    rawLabel (some (.str s)) =
      if pyLower (pyStrip s) = "true".data ∨ pyLower (pyStrip s) = "t".data ∨
          pyLower (pyStrip s) = "yes".data then "True"
      else if pyLower (pyStrip s) = "false".data ∨
          pyLower (pyStrip s) = "f".data ∨ pyLower (pyStrip s) = "no".data
        then "False"
      else if pyLower (pyStrip s) = "maybe".data then "Maybe"
      else String.mk (pyStrip s) := rfl

theorem string_mk_eq_iff (l : List Char) (t : String) :
    String.mk l = t ↔ l = t.data := by
  constructor
  · intro h
    simpa using congrArg String.data h
  · intro h
    subst h
    rfl

/-! ## Helper lemmas: polling -/
theorem requirementsPoll_attempts_le (f : Nat → Option String) :
    ∀ (fuel : Nat) (c : Option String) (a : Nat), a ≤ 200 →
      (requirementsPoll f c a fuel).2 ≤ 200 := by
  intro fuel
  induction fuel with
  | zero =>
    intro c a ha
    cases c <;> simpa [requirementsPoll]
  | succ n ih =>
    intro c a ha
    cases c with
    | some s => simpa [requirementsPoll]
    | none =>
      by_cases h : a < 200
      · simpa [requirementsPoll, h] using ih (f (a + 1)) (a + 1) h
      · simpa [requirementsPoll, h]

theorem requirementsPoll_none (f : Nat → Option String)
    (hf : ∀ i, i ≤ 200 → f i = none) :
    ∀ (fuel : Nat) (a : Nat), a ≤ 200 →
      (requirementsPoll f (f a) a fuel).1 = none := by
  intro fuel
  induction fuel with
  | zero =>
    intro a ha
    rw [hf a ha]
    simp [requirementsPoll]
  | succ n ih =>
    intro a ha
    rw [hf a ha]
    by_cases h : a < 200
    · simpa [requirementsPoll, h] using ih (a + 1) h
    · simp [requirementsPoll, h]

/-! ## Helper lemmas: final-dataset lookup and row assembly -/
theorem firstHit_eq_none (ai_map : List (List Char × String))
    (cs : List (List Char)) (h : ∀ c ∈ cs, alookup ai_map c = none) :
    firstHit ai_map cs = none := by
  induction cs with
  | nil => rfl
  | cons c cs ih =>
    unfold firstHit
    rw [h c (by simp)]
    exact ih (fun c' hc' => h c' (by simp [hc']))

theorem truncCandidates_eq (ad_id : List Char) :
    truncCandidates ad_id =
      (if 2 ≤ (splitDash ad_id).length then
        [joinDash ((splitDash ad_id).take ((splitDash ad_id).length - 1))]
      else []) ++
      (if 3 ≤ (splitDash ad_id).length then
        [joinDash ((splitDash ad_id).take ((splitDash ad_id).length - 2))]
      else []) := by
  unfold truncCandidates
  rcases h : splitDash ad_id with _ | ⟨p1, _ | ⟨p2, _ | ⟨p3, t3⟩⟩⟩
  · simp
  · simp [List.range']
  · simp [List.range']
  · have hmin : min 3 (p1 :: p2 :: p3 :: t3).length = 3 := by
      simp only [List.length_cons]
      omega
    rw [hmin]
    have hr : List.range' 1 (3 - 1) = [1, 2] := rfl
    rw [hr]
    have h2 : 2 ≤ (p1 :: p2 :: p3 :: t3).length := by
      simp only [List.length_cons]; omega
    have h3 : 3 ≤ (p1 :: p2 :: p3 :: t3).length := by
      simp only [List.length_cons]; omega
    rw [if_pos h2, if_pos h3]
    simp

theorem assembleRow_eq_some (ai_map : List (List Char × String))
    (rec : BaseRecord) (row : Row) (h : assembleRow ai_map rec = some row) :
    rec.year = some row.year ∧ rec.ad_id = some row.ad_id ∧
    2010 ≤ row.year ∧ row.year ≤ 2024 ∧ row.ad_id ≠ [] ∧
    row.aiReq = lookup_ai_requirement ai_map row.ad_id := by
  obtain ⟨oid, oy⟩ := rec
  cases oy with
  | none => simp [assembleRow] at h
  | some y =>
    by_cases hr : y < 2010 ∨ 2024 < y
    · simp [assembleRow, hr] at h
    · cases oid with
      | none => simp [assembleRow, hr] at h
      | some aid =>
        by_cases he : aid = []
        · simp [assembleRow, hr, he] at h
        · simp only [assembleRow, if_neg hr, if_neg he,
            Option.some.injEq] at h
          subst h
          refine ⟨rfl, rfl, by dsimp only; omega, by dsimp only; omega, he, rfl⟩

/-! ## Claim theorems -/
/-- C1 counterexample: the claim maps every value other than booleans
and the strings "true"/"yes"/"True" (and the false variants) to
"False", but the code maps the string "t" to "True" and the string
" MAYBE " to "Maybe". -/
theorem C1_counterexample :
    normalize_ai_requirement (some (.str "t".data)) = "True" ∧
    normalize_ai_requirement (some (.str " MAYBE ".data)) = "Maybe" := by
  exact ⟨by decide, by decide⟩

/-- C1 (amended): label normalization is a total function with result in
{"True", "Maybe", "False"} and never raises; boolean true maps to
"True" and boolean false to "False"; a string is stripped and
lowercased, then "true"/"t"/"yes" map to "True", "false"/"f"/"no" map
to "False", "maybe" maps to "Maybe", and every other string maps to
"False"; a missing value and any non-bool non-string value map to
"False". -/
theorem C1_label_normalization (v : Option JVal) (s : List Char) (n : Int) :
    (normalize_ai_requirement v = "True" ∨ normalize_ai_requirement v = "Maybe" ∨
      normalize_ai_requirement v = "False") ∧
    normalize_ai_requirement (some (.bool true)) = "True" ∧
    normalize_ai_requirement (some (.bool false)) = "False" ∧
    (pyLower (pyStrip s) = "true".data ∨ pyLower (pyStrip s) = "t".data ∨
        pyLower (pyStrip s) = "yes".data →
      normalize_ai_requirement (some (.str s)) = "True") ∧
    (pyLower (pyStrip s) = "false".data ∨ pyLower (pyStrip s) = "f".data ∨
        pyLower (pyStrip s) = "no".data →
      normalize_ai_requirement (some (.str s)) = "False") ∧
    (pyLower (pyStrip s) = "maybe".data →
      normalize_ai_requirement (some (.str s)) = "Maybe") ∧
    (pyLower (pyStrip s) ∉ ["true".data, "t".data, "yes".data, "false".data,
        "f".data, "no".data, "maybe".data] →
      normalize_ai_requirement (some (.str s)) = "False") ∧
    normalize_ai_requirement none = "False" ∧
    normalize_ai_requirement (some .null) = "False" ∧
    normalize_ai_requirement (some (.num n)) = "False" := by
  refine ⟨?_, by decide, by decide, ?_, ?_, ?_, ?_, by decide, by decide, rfl⟩
  · rw [normalize_eq_guard]
    by_cases h : rawLabel v = "True" ∨ rawLabel v = "Maybe" ∨ rawLabel v = "False"
    · rw [if_pos h]; exact h
    · rw [if_neg h]; right; right; rfl
  · intro h
    rw [normalize_eq_guard]
    have hr : rawLabel (some (.str s)) = "True" := by
      rw [rawLabel_str, if_pos h]
    rw [hr]
    simp
  · intro h
    rw [normalize_eq_guard]
    have h1 : ¬(pyLower (pyStrip s) = "true".data ∨ pyLower (pyStrip s) = "t".data ∨
        pyLower (pyStrip s) = "yes".data) := by
      rcases h with h | h | h <;> rw [h] <;> decide
    have hr : rawLabel (some (.str s)) = "False" := by
      rw [rawLabel_str, if_neg h1, if_pos h]
    rw [hr]
    simp
  · intro h
    rw [normalize_eq_guard]
    have h1 : ¬(pyLower (pyStrip s) = "true".data ∨ pyLower (pyStrip s) = "t".data ∨
        pyLower (pyStrip s) = "yes".data) := by
      rw [h]; decide
    have h2 : ¬(pyLower (pyStrip s) = "false".data ∨ pyLower (pyStrip s) = "f".data ∨
        pyLower (pyStrip s) = "no".data) := by
      rw [h]; decide
    have hr : rawLabel (some (.str s)) = "Maybe" := by
      rw [rawLabel_str, if_neg h1, if_neg h2, if_pos h]
    rw [hr]
    simp
  · intro h
    simp only [List.mem_cons, List.not_mem_nil, or_false, not_or] at h
    obtain ⟨ht, htt, hy, hf, hff, hn, hm⟩ := h
    have hr : rawLabel (some (.str s)) = String.mk (pyStrip s) := by
      rw [rawLabel_str, if_neg (by tauto), if_neg (by tauto), if_neg hm]
    rw [normalize_eq_guard, hr]
    rw [if_neg ?_]
    intro hc
    rcases hc with hc | hc | hc
    · rw [string_mk_eq_iff] at hc
      apply ht
      rw [hc]
      decide
    · rw [string_mk_eq_iff] at hc
      apply hm
      rw [hc]
      decide
    · rw [string_mk_eq_iff] at hc
      apply hf
      rw [hc]
      decide

/-- C1 witness: the amended theorem applied to the concrete strings
" YES " (a true variant) and "garbage" (an unexpected value). -/
theorem C1_label_normalization_witness :
    normalize_ai_requirement (some (.str " YES ".data)) = "True" ∧
    normalize_ai_requirement (some (.str "garbage".data)) = "False" := by
  constructor
  · obtain ⟨-, -, -, h4, -⟩ :=
      C1_label_normalization (some (.str " YES ".data)) " YES ".data 0
    exact h4 (by decide)
  · obtain ⟨-, -, -, -, -, -, h7, -⟩ :=
      C1_label_normalization (some (.str "garbage".data)) "garbage".data 0
    exact h7 (by decide)

/-- C6 counterexample: on a batch whose `output_file_id` is falsy on the
first retrieve and present from the second on, the mentions-batch
`fetch_results` aborts immediately with its error, while the
requirements-batch `fetch` succeeds after one retry; so the claim that
the fetch step of the batch pipeline always re-queries a missing
`output_file_id` with bounded polling before failing is false for
validate_ai_mentions_batch.py. -/
theorem C6_counterexample :
    mentions_fetch_output lagOutputFile =
      Except.error "No output_file_id on batch" ∧
    requirements_fetch_output lagOutputFile = Except.ok "file-1" :=
  ⟨rfl, rfl⟩

/-- C6 (amended): in the requirements-batch `fetch`, a missing
`output_file_id` on a completed batch is re-queried with bounded
polling: the run does not fail on the first missing id (an id appearing
on the second retrieve is returned), it fails with
"No output_file_id" when all 201 retrieves carry none, and the retry
counter never exceeds 200; the mentions-batch `fetch_results` instead
fails immediately on the first missing id. -/
theorem C6_requirements_bounded_polling (f : Nat → Option String) (s : String) :
    (f 0 = none → f 1 = some s → requirements_fetch_output f = Except.ok s) ∧
    ((∀ i, i ≤ 200 → f i = none) →
      requirements_fetch_output f = Except.error "No output_file_id") ∧
    (requirementsPoll f (f 0) 0 200).2 ≤ 200 ∧
    (f 0 = none → ∀ g : Nat → Option String, g 0 = none →
      mentions_fetch_output g = Except.error "No output_file_id on batch") := by
  refine ⟨?_, ?_, requirementsPoll_attempts_le f 200 (f 0) 0 (by omega), ?_⟩
  · intro h0 h1
    unfold requirements_fetch_output
    rw [h0]
    show (match requirementsPoll f none 0 200 with
      | (some s, _) => Except.ok s
      | (none, _) => Except.error "No output_file_id") = Except.ok s
    rw [show requirementsPoll f none 0 200 = (some s, 1) by
      unfold requirementsPoll
      rw [if_pos (by omega), h1]
      rfl]
  · intro hall
    have h := requirementsPoll_none f hall 200 0 (by omega)
    unfold requirements_fetch_output
    rcases hp : requirementsPoll f (f 0) 0 200 with ⟨c, a⟩
    rw [hp] at h
    simp only at h
    subst h
    rfl
  · intro _ g hg
    unfold mentions_fetch_output
    rw [hg]

/-- C6 witness: the amended theorem applied to a concrete lagging
response sequence. -/
theorem C6_requirements_bounded_polling_witness :
    requirements_fetch_output (fun i => if i = 0 then none else some "w") =
      Except.ok "w" :=
  (C6_requirements_bounded_polling
    (fun i => if i = 0 then none else some "w") "w").1 rfl rfl

/-- C7: the AI-requirement lookup tries the exact ad identifier first;
missing that, it tries the identifier with one, then two trailing
dash-separated segments stripped (never more than two candidates),
returning the first hit; when the exact id and every truncation miss,
it returns null, and the base record is still emitted as a row whose
label is exactly the lookup's result, null included. -/
theorem C7_lookup_ai_requirement (ai_map : List (List Char × String))
    (ad_id : List Char) (records : List BaseRecord) (rec : BaseRecord)
    (y : Int) (aid : List Char) (hrec : rec ∈ records)
    (hy : rec.year = some y) (hy1 : 2010 ≤ y) (hy2 : y ≤ 2024)
    (ha : rec.ad_id = some aid) (ha2 : aid ≠ []) :
    (∀ v, alookup ai_map ad_id = some v →
      lookup_ai_requirement ai_map ad_id = some v) ∧
    truncCandidates ad_id =
      (if 2 ≤ (splitDash ad_id).length then
        [joinDash ((splitDash ad_id).take ((splitDash ad_id).length - 1))]
      else []) ++
      (if 3 ≤ (splitDash ad_id).length then
        [joinDash ((splitDash ad_id).take ((splitDash ad_id).length - 2))]
      else []) ∧
    (truncCandidates ad_id).length ≤ 2 ∧
    (alookup ai_map ad_id = none →
      lookup_ai_requirement ai_map ad_id =
        firstHit ai_map (truncCandidates ad_id)) ∧
    (alookup ai_map ad_id = none →
      (∀ c ∈ truncCandidates ad_id, alookup ai_map c = none) →
      lookup_ai_requirement ai_map ad_id = none) ∧
    (∃ row ∈ processRecords records ai_map,
      row.ad_id = aid ∧ row.year = y ∧
      row.aiReq = lookup_ai_requirement ai_map aid) := by
  refine ⟨?_, truncCandidates_eq ad_id, ?_, ?_, ?_, ?_⟩
  · intro v hv
    unfold lookup_ai_requirement
    rw [hv]
  · rw [truncCandidates_eq ad_id]
    split_ifs <;> simp
  · intro hv
    unfold lookup_ai_requirement
    rw [hv]
  · intro hv hall
    unfold lookup_ai_requirement
    rw [hv]
    exact firstHit_eq_none ai_map _ hall
  · refine ⟨⟨aid, y, lookup_ai_requirement ai_map aid⟩, ?_, rfl, rfl, rfl⟩
    unfold processRecords
    refine List.mem_filterMap.2 ⟨rec, hrec, ?_⟩
    unfold assembleRow
    rw [hy, ha]
    dsimp only
    rw [if_neg (by omega), if_neg ha2]

/-- C7 witness: the theorem applied to a concrete map and record where
only the doubly-truncated identifier hits. -/
theorem C7_lookup_ai_requirement_witness :
    lookup_ai_requirement [("a-b".data, "True")] "a-b-c-d".data = some "True" ∧
    (∃ row ∈ processRecords [⟨some "a-b-c-d".data, some 2015⟩]
        [("a-b".data, "True")],
      row.ad_id = "a-b-c-d".data ∧ row.year = 2015 ∧
      row.aiReq = lookup_ai_requirement [("a-b".data, "True")] "a-b-c-d".data) := by
  obtain ⟨-, -, -, h4, -, h6⟩ :=
    C7_lookup_ai_requirement [("a-b".data, "True")] "a-b-c-d".data
      [⟨some "a-b-c-d".data, some 2015⟩] ⟨some "a-b-c-d".data, some 2015⟩
      2015 "a-b-c-d".data (by decide) rfl (by decide) (by decide) rfl (by decide)
  refine ⟨?_, h6⟩
  rw [h4 (by decide)]
  decide

/-- C9 counterexample: the assembler emits one row per surviving input
record and never deduplicates, so feeding the same base record twice
produces two rows with the same ad identifier and year; the claim that
the final dataset has at most one row per (ad identifier, year) fails
on such an input. -/
theorem C9_counterexample :
    processRecords [⟨some "A-1".data, some 2015⟩, ⟨some "A-1".data, some 2015⟩]
        [] =
      [{ ad_id := "A-1".data, year := 2015, aiReq := none },
       { ad_id := "A-1".data, year := 2015, aiReq := none }] := by
  decide

/-- C9 (amended): every row of the final analysis dataset has a posting
year in [2010, 2024]; and when the base input holds at most one record
per (ad identifier, extracted year), the dataset has at most one row
per (ad identifier, year) - uniqueness is preserved from the input, not
enforced by the assembler. -/
theorem C9_rows (records : List BaseRecord)
    (ai_map : List (List Char × String)) :
    (∀ row ∈ processRecords records ai_map,
      2010 ≤ row.year ∧ row.year ≤ 2024) ∧
    ((records.Pairwise fun a b => ¬(a.ad_id = b.ad_id ∧ a.year = b.year)) →
      (processRecords records ai_map).Pairwise
        fun r1 r2 => ¬(r1.ad_id = r2.ad_id ∧ r1.year = r2.year)) := by
  constructor
  · intro row hrow
    rcases List.mem_filterMap.1 hrow with ⟨rec, _, hf⟩
    obtain ⟨-, -, h1, h2, -⟩ := assembleRow_eq_some ai_map rec row hf
    exact ⟨h1, h2⟩
  · intro hpw
    unfold processRecords
    rw [List.pairwise_filterMap]
    refine hpw.imp ?_
    intro a b hR r1 hr1 r2 hr2 hk
    obtain ⟨ha1, ha2, -⟩ := assembleRow_eq_some ai_map a r1 hr1
    obtain ⟨hb1, hb2, -⟩ := assembleRow_eq_some ai_map b r2 hr2
    exact hR ⟨by rw [ha2, hb2, hk.1], by rw [ha1, hb1, hk.2]⟩

/-- C9 witness: the theorem applied to a concrete duplicate-free input. -/
theorem C9_rows_witness :
    (∀ row ∈ processRecords [⟨some "A-1".data, some 2015⟩] [],
      2010 ≤ row.year ∧ row.year ≤ 2024) ∧
    (processRecords [⟨some "A-1".data, some 2015⟩] []).Pairwise
      fun r1 r2 => ¬(r1.ad_id = r2.ad_id ∧ r1.year = r2.year) :=
  ⟨(C9_rows [⟨some "A-1".data, some 2015⟩] []).1,
    (C9_rows [⟨some "A-1".data, some 2015⟩] []).2 (by decide)⟩

/-! ## Helper lemmas: assignment sequences (`applyInner`) -/
theorem mem_of_alookup {α β : Type} [DecidableEq α] (m : List (α × β))
    (k : α) (v : β) (h : alookup m k = some v) : (k, v) ∈ m := by
  induction m with
  | nil => simp at h
  | cons p t ih =>
    obtain ⟨a, b⟩ := p
    by_cases ha : a = k
    · subst ha
      simp only [alookup_cons, if_pos rfl, Option.some.injEq] at h
      simp at h
      simp [h]
    · simp only [alookup_cons, ha, if_false] at h
      simp [ih h]

theorem alookup_of_mem_nodup {α β : Type} [DecidableEq α] (m : List (α × β))
    (k : α) (v : β) (hm : (k, v) ∈ m) (hnd : (dkeys m).Nodup) :
    alookup m k = some v := by
  induction m with
  | nil => simp at hm
  | cons p t ih =>
    obtain ⟨a, b⟩ := p
    simp only [dkeys_cons, List.nodup_cons] at hnd
    rcases List.mem_cons.1 hm with hm | hm
    · obtain ⟨h1, h2⟩ := Prod.mk.injEq .. ▸ hm
      injection hm with h1 h2
      subst h1; subst h2
      simp
    · have hk : a ≠ k := by
        intro ha
        subst ha
        exact hnd.1 (List.mem_map.2 ⟨(a, v), hm, rfl⟩)
      simp only [alookup_cons, hk, if_false]
      exact ih hm hnd.2

theorem dictSet_ne_nil {α β : Type} [DecidableEq α] (m : List (α × β))
    (k : α) (v : β) : dictSet m k v ≠ [] := by
  cases m with
  | nil => simp [dictSet_nil]
  | cons p t =>
    obtain ⟨a, b⟩ := p
    by_cases ha : a = k
    · subst ha; rw [dictSet_cons_self]; simp
    · rw [dictSet_cons_ne a k b v t ha]; simp

@[simp] theorem applyInner_nil {α β : Type} [DecidableEq α]
    (x : List (α × β)) : applyInner [] x = x := rfl

@[simp] theorem applyInner_cons {α β : Type} [DecidableEq α] (a : α × β)
    (σ : List (α × β)) (x : List (α × β)) :
    applyInner (a :: σ) x = applyInner σ (dictSet x a.1 a.2) := rfl

theorem alookup_applyInner_not_mem {α β : Type} [DecidableEq α]
    (σ : List (α × β)) (x : List (α × β)) (k : α)
    (h : k ∉ σ.map Prod.fst) :
    alookup (applyInner σ x) k = alookup x k := by
  induction σ generalizing x with
  | nil => rfl
  | cons a τ ih =>
    simp only [List.map_cons, List.mem_cons, not_or] at h
    rw [applyInner_cons, ih _ h.2, alookup_dictSet, if_neg h.1]

theorem alookup_applyInner_mem_const {α β : Type} [DecidableEq α]
    (σ : List (α × β)) (x y : List (α × β)) (k : α)
    (h : k ∈ σ.map Prod.fst) :
    alookup (applyInner σ x) k = alookup (applyInner σ y) k := by
  induction σ generalizing x y with
  | nil => simp at h
  | cons a τ ih =>
    by_cases hk : k ∈ τ.map Prod.fst
    · rw [applyInner_cons, applyInner_cons]
      exact ih _ _ hk
    · simp only [List.map_cons, List.mem_cons] at h
      rcases h with h | h
      · rw [applyInner_cons, applyInner_cons,
          alookup_applyInner_not_mem τ _ k hk,
          alookup_applyInner_not_mem τ _ k hk,
          alookup_dictSet, alookup_dictSet, if_pos h, if_pos h]
      · exact absurd h hk

theorem mem_dkeys_applyInner_of_mem_right {α β : Type} [DecidableEq α]
    (σ : List (α × β)) (x : List (α × β)) (k : α) (h : k ∈ dkeys x) :
    k ∈ dkeys (applyInner σ x) := by
  induction σ generalizing x with
  | nil => exact h
  | cons a τ ih =>
    rw [applyInner_cons]
    exact ih _ (mem_dkeys_dictSet_of_mem x a.1 k a.2 h)

theorem mem_dkeys_applyInner_of_mem {α β : Type} [DecidableEq α]
    (σ : List (α × β)) (x : List (α × β)) (k : α)
    (h : k ∈ σ.map Prod.fst) : k ∈ dkeys (applyInner σ x) := by
  induction σ generalizing x with
  | nil => simp at h
  | cons a τ ih =>
    simp only [List.map_cons, List.mem_cons] at h
    rw [applyInner_cons]
    by_cases hk : k ∈ τ.map Prod.fst
    · exact ih _ hk
    · rcases h with h | h
      · subst h
        exact mem_dkeys_applyInner_of_mem_right τ _ _
          (mem_dkeys_dictSet x a.1 a.2)
      · exact absurd h hk

theorem dkeys_applyInner_of_subset {α β : Type} [DecidableEq α]
    (σ : List (α × β)) (x : List (α × β))
    (h : ∀ k ∈ σ.map Prod.fst, k ∈ dkeys x) :
    dkeys (applyInner σ x) = dkeys x := by
  induction σ generalizing x with
  | nil => rfl
  | cons a τ ih =>
    have ha : a.1 ∈ dkeys x := h a.1 (by simp)
    rw [applyInner_cons, ih _ ?_, dkeys_dictSet_of_mem x a.1 a.2 ha]
    intro k hk
    rw [dkeys_dictSet_of_mem x a.1 a.2 ha]
    exact h k (by simp [hk])

theorem nodup_dkeys_applyInner {α β : Type} [DecidableEq α]
    (σ : List (α × β)) (x : List (α × β)) (h : (dkeys x).Nodup) :
    (dkeys (applyInner σ x)).Nodup := by
  induction σ generalizing x with
  | nil => exact h
  | cons a τ ih =>
    rw [applyInner_cons]
    exact ih _ (nodup_dkeys_dictSet x a.1 a.2 h)

theorem applyInner_eq_nil {α β : Type} [DecidableEq α]
    (σ : List (α × β)) (x : List (α × β)) (h : applyInner σ x = []) :
    σ = [] ∧ x = [] := by
  induction σ generalizing x with
  | nil => exact ⟨rfl, h⟩
  | cons a τ ih =>
    rw [applyInner_cons] at h
    exact absurd (ih _ h).2 (dictSet_ne_nil x a.1 a.2)

/-- Applying the same assignment sequence twice is the same as applying
it once (on a duplicate-free dictionary). -/
theorem applyInner_idem {α β : Type} [DecidableEq α]
    (σ : List (α × β)) (x : List (α × β)) (h : (dkeys x).Nodup) :
    applyInner σ (applyInner σ x) = applyInner σ x := by
  apply alookup_ext
  · exact dkeys_applyInner_of_subset σ _
      (fun k hk => mem_dkeys_applyInner_of_mem σ x k hk)
  · exact nodup_dkeys_applyInner σ _ (nodup_dkeys_applyInner σ x h)
  · intro k
    by_cases hk : k ∈ σ.map Prod.fst
    · exact alookup_applyInner_mem_const σ _ x k hk
    · rw [alookup_applyInner_not_mem σ _ k hk]

/-! ## Helper lemmas: characterizing `integrate` -/
theorem foldl_outAds (r_index : List (String × FetchResult))
    (ads : List String) : ∀ x : List (String × RRec),
    ads.foldl (fun oa ad_id =>
      match alookup r_index ad_id with
      | some r => dictSet oa ad_id (mkRRec r)
      | none => oa) x = applyInner (yearHits r_index ads) x := by
  induction ads with
  | nil => intro x; rfl
  | cons ad rest ih =>
    intro x
    cases h : alookup r_index ad with
    | some r =>
      have hy : yearHits r_index (ad :: rest) =
          (ad, mkRRec r) :: yearHits r_index rest := by
        simp [yearHits, List.filterMap_cons, h]
      rw [hy]
      simp only [List.foldl_cons, h]
      rw [ih (dictSet x ad (mkRRec r))]
      rfl
    | none =>
      have hy : yearHits r_index (ad :: rest) = yearHits r_index rest := by
        simp [yearHits, List.filterMap_cons, h]
      rw [hy]
      simp only [List.foldl_cons, h]
      exact ih x

theorem integrateYearStep_eq (r_index : List (String × FetchResult))
    (out : AggFile) (yi : Int) (ads : List String) :
    integrateYearStep r_index out yi ads =
      if (applyInner (yearHits r_index ads) ((alookup out yi).getD [])).isEmpty
      then out
      else dictSet out yi
        (applyInner (yearHits r_index ads) ((alookup out yi).getD [])) := by
  unfold integrateYearStep
  rw [foldl_outAds r_index ads ((alookup out yi).getD [])]

theorem alookup_integrateYearStep_ne (r_index : List (String × FetchResult))
    (out : AggFile) (yi : Int) (ads : List String) (y : Int) (h : y ≠ yi) :
    alookup (integrateYearStep r_index out yi ads) y = alookup out y := by
  rw [integrateYearStep_eq]
  split
  · rfl
  · rw [alookup_dictSet, if_neg h]

theorem alookup_matchesStep_ne (r_index : List (String × FetchResult))
    (sy ey : Option Int) (out : AggFile) (m : Int × List String) (y : Int)
    (h : y ≠ m.1) :
    alookup (matchesStep r_index sy ey out m) y = alookup out y := by
  unfold matchesStep
  split
  · exact alookup_integrateYearStep_ne r_index out m.1 m.2 y h
  · rfl

theorem alookup_integrateMatches (results : List FetchResult)
    (matchIndex : List (Int × List String)) (sy ey : Option Int)
    (out0 : AggFile) (y : Int) (hnd : (matchIndex.map Prod.fst).Nodup) :
    alookup (integrateMatches results matchIndex sy ey out0) y =
      match alookup matchIndex y with
      | some ads =>
        if inRange sy ey y = true then yearResult (buildRIndex results) out0 y ads
        else alookup out0 y
      | none => alookup out0 y := by
  induction matchIndex generalizing out0 with
  | nil => rfl
  | cons m rest ih =>
    obtain ⟨y0, ads0⟩ := m
    simp only [List.map_cons, List.nodup_cons] at hnd
    have hfold : integrateMatches results ((y0, ads0) :: rest) sy ey out0 =
        integrateMatches results rest sy ey
          (matchesStep (buildRIndex results) sy ey out0 (y0, ads0)) := rfl
    rw [hfold, ih _ hnd.2]
    by_cases hy : y = y0
    · subst hy
      have hrest : alookup rest y = none :=
        alookup_eq_none_of_not_mem rest y hnd.1
      have hsc : alookup ((y, ads0) :: rest) y = some ads0 := by simp
      simp only [hrest, hsc]
      unfold matchesStep
      by_cases hir : inRange sy ey y = true
      · rw [if_pos hir, if_pos hir, integrateYearStep_eq]
        unfold yearResult
        split
        · rfl
        · rw [alookup_dictSet, if_pos rfl]
      · rw [if_neg hir, if_neg hir]
    · have hy0 : ¬ y0 = y := fun h => hy h.symm
      have hsc : alookup ((y0, ads0) :: rest) y = alookup rest y := by
        simp [hy0]
      rw [hsc]
      have hstep : alookup (matchesStep (buildRIndex results) sy ey out0
          (y0, ads0)) y = alookup out0 y :=
        alookup_matchesStep_ne _ _ _ _ _ _ hy
      cases halo : alookup rest y with
      | none => simp only [halo, hstep]
      | some ads =>
        simp only [halo]
        unfold yearResult
        rw [hstep]

theorem allHits_cons_none (r : FetchResult) (rest : List FetchResult)
    (sy ey : Option Int) (y : Int) (hY : r.year = none) :
    allHits (r :: rest) sy ey y = allHits rest sy ey y := by
  unfold allHits
  rw [List.filterMap_cons]
  simp only [hY]

theorem allHits_cons_skip (r : FetchResult) (rest : List FetchResult)
    (sy ey : Option Int) (y y' : Int) (hY : r.year = some y')
    (hc : ¬(y' = y ∧ r.ad_id ≠ "" ∧ inRange sy ey y' = true)) :
    allHits (r :: rest) sy ey y = allHits rest sy ey y := by
  unfold allHits
  rw [List.filterMap_cons]
  simp only [hY, if_neg hc]

theorem allHits_cons_hit (r : FetchResult) (rest : List FetchResult)
    (sy ey : Option Int) (y y' : Int) (hY : r.year = some y')
    (hc : y' = y ∧ r.ad_id ≠ "" ∧ inRange sy ey y' = true) :
    allHits (r :: rest) sy ey y =
      (r.ad_id, mkRRec r) :: allHits rest sy ey y := by
  unfold allHits
  rw [List.filterMap_cons]
  simp only [hY, if_pos hc]

theorem alookup_integrateAll (results : List FetchResult) (sy ey : Option Int)
    (out0 : AggFile) (y : Int) :
    alookup (integrateAll results sy ey out0) y =
      if (allHits results sy ey y).isEmpty then alookup out0 y
      else some (applyInner (allHits results sy ey y)
        ((alookup out0 y).getD [])) := by
  induction results generalizing out0 with
  | nil => rfl
  | cons r rest ih =>
    have hfold : integrateAll (r :: rest) sy ey out0 =
        integrateAll rest sy ey (integrateAllStep sy ey out0 r) := rfl
    rw [hfold, ih]
    cases hY : r.year with
    | none =>
      have hs : integrateAllStep sy ey out0 r = out0 := by
        unfold integrateAllStep; rw [hY]
      rw [hs, allHits_cons_none r rest sy ey y hY]
    | some y' =>
      by_cases had : r.ad_id = ""
      · have hs : integrateAllStep sy ey out0 r = out0 := by
          unfold integrateAllStep; rw [hY]; dsimp only; rw [if_pos had]
        have hc : ¬(y' = y ∧ r.ad_id ≠ "" ∧ inRange sy ey y' = true) := by
          intro hc; exact hc.2.1 had
        rw [hs, allHits_cons_skip r rest sy ey y y' hY hc]
      · by_cases hir : inRange sy ey y' = true
        · by_cases hyy : y' = y
          · subst hyy
            have hc : y' = y' ∧ r.ad_id ≠ "" ∧ inRange sy ey y' = true :=
              ⟨rfl, had, hir⟩
            rw [allHits_cons_hit r rest sy ey y' y' hY hc]
            have hs : integrateAllStep sy ey out0 r =
                dictSet out0 y' (dictSet ((alookup out0 y').getD [])
                  r.ad_id (mkRRec r)) := by
              unfold integrateAllStep; rw [hY]; dsimp only
              rw [if_neg had, if_pos hir]
            rw [hs, alookup_dictSet, if_pos rfl]
            cases hτ : allHits rest sy ey y' with
            | nil => simp
            | cons a τ =>
              simp only [List.isEmpty_cons, Option.getD_some, applyInner_cons,
                Bool.false_eq_true, if_false]
          · have hc : ¬(y' = y ∧ r.ad_id ≠ "" ∧ inRange sy ey y' = true) := by
              intro hc; exact hyy hc.1
            rw [allHits_cons_skip r rest sy ey y y' hY hc]
            have hs : alookup (integrateAllStep sy ey out0 r) y =
                alookup out0 y := by
              unfold integrateAllStep
              rw [hY]; dsimp only
              rw [if_neg had, if_pos hir, alookup_dictSet,
                if_neg (fun h => hyy h.symm)]
            rw [hs]
        · have hs : integrateAllStep sy ey out0 r = out0 := by
            unfold integrateAllStep; rw [hY]; dsimp only
            rw [if_neg had, if_neg hir]
          have hc : ¬(y' = y ∧ r.ad_id ≠ "" ∧ inRange sy ey y' = true) := by
            intro hc; exact hir hc.2.2
          rw [hs, allHits_cons_skip r rest sy ey y y' hY hc]

/-! ## Helper lemmas: whose keys `integrate` can touch -/
theorem buildRIndex_keys_from (k : String) (r : FetchResult) :
    ∀ (results : List FetchResult) (m : List (String × FetchResult)),
      alookup (results.foldl (fun m r =>
        if r.ad_id = "" then m else dictSet m r.ad_id r) m) k = some r →
      (∃ r' ∈ results, r'.ad_id = k) ∨ alookup m k = some r := by
  intro results
  induction results with
  | nil => intro m h; exact Or.inr h
  | cons r0 rest ih =>
    intro m h
    simp only [List.foldl_cons] at h
    rcases ih _ h with h' | h'
    · rcases h' with ⟨r', hr', hk⟩
      exact Or.inl ⟨r', List.mem_cons_of_mem r0 hr', hk⟩
    · by_cases h0 : r0.ad_id = ""
      · rw [if_pos h0] at h'
        exact Or.inr h'
      · rw [if_neg h0, alookup_dictSet] at h'
        by_cases hk : k = r0.ad_id
        · exact Or.inl ⟨r0, List.mem_cons_self r0 rest, hk.symm⟩
        · rw [if_neg hk] at h'
          exact Or.inr h'

theorem buildRIndex_keys (results : List FetchResult) (k : String)
    (r : FetchResult) (h : alookup (buildRIndex results) k = some r) :
    ∃ r' ∈ results, r'.ad_id = k := by
  rcases buildRIndex_keys_from k r results [] h with h' | h'
  · exact h'
  · simp at h'

theorem yearHits_keys (r_index : List (String × FetchResult))
    (ads : List String) (k : String)
    (h : k ∈ (yearHits r_index ads).map Prod.fst) :
    ∃ r, alookup r_index k = some r := by
  rcases List.mem_map.1 h with ⟨⟨ad, v⟩, hmem, hk⟩
  rcases List.mem_filterMap.1 hmem with ⟨ad', _, hf⟩
  rcases Option.map_eq_some'.1 hf with ⟨r, hr, he⟩
  injection he with h1 h2
  subst h1
  simp only at hk
  subst hk
  exact ⟨r, hr⟩

theorem allHits_keys (results : List FetchResult) (sy ey : Option Int)
    (y : Int) (k : String)
    (h : k ∈ (allHits results sy ey y).map Prod.fst) :
    ∃ r' ∈ results, r'.ad_id = k := by
  rcases List.mem_map.1 h with ⟨⟨ad, v⟩, hmem, hk⟩
  rcases List.mem_filterMap.1 hmem with ⟨r, hr, hf⟩
  cases hY : r.year with
  | none => rw [hY] at hf; simp at hf
  | some y' =>
    rw [hY] at hf
    dsimp only at hf
    by_cases hc : y' = y ∧ r.ad_id ≠ "" ∧ inRange sy ey y' = true
    · rw [if_pos hc] at hf
      injection hf with hf
      injection hf with h1 h2
      subst h1
      simp only at hk
      subst hk
      exact ⟨r, hr, rfl⟩
    · rw [if_neg hc] at hf
      simp at hf

/-! ## Helper lemmas: keys and nodup preservation of `integrate` -/
theorem isEmpty_true_iff {α : Type} (l : List α) : l.isEmpty = true ↔ l = [] := by
  cases l <;> simp

theorem dkeys_integrateAllStep (sy ey : Option Int) (out : AggFile)
    (r : FetchResult)
    (h : ∀ y', r.year = some y' → r.ad_id ≠ "" → inRange sy ey y' = true →
      y' ∈ dkeys out) :
    dkeys (integrateAllStep sy ey out r) = dkeys out := by
  unfold integrateAllStep
  cases hY : r.year with
  | none => rfl
  | some y' =>
    dsimp only
    by_cases had : r.ad_id = ""
    · rw [if_pos had]
    · rw [if_neg had]
      by_cases hir : inRange sy ey y' = true
      · rw [if_pos hir]
        exact dkeys_dictSet_of_mem out y' _ (h y' hY had hir)
      · rw [if_neg hir]

theorem dkeys_integrateAll_of (sy ey : Option Int) :
    ∀ (results : List FetchResult) (out : AggFile),
      (∀ r ∈ results, ∀ y', r.year = some y' → r.ad_id ≠ "" →
        inRange sy ey y' = true → y' ∈ dkeys out) →
      dkeys (integrateAll results sy ey out) = dkeys out := by
  intro results
  induction results with
  | nil => intro out _; rfl
  | cons r rest ih =>
    intro out h
    have hstep : dkeys (integrateAllStep sy ey out r) = dkeys out :=
      dkeys_integrateAllStep sy ey out r
        (fun y' h1 h2 h3 => h r (List.mem_cons_self r rest) y' h1 h2 h3)
    have hfold : integrateAll (r :: rest) sy ey out =
        integrateAll rest sy ey (integrateAllStep sy ey out r) := rfl
    rw [hfold, ih _ ?_, hstep]
    intro r' hr' y' h1 h2 h3
    rw [hstep]
    exact h r' (List.mem_cons_of_mem r hr') y' h1 h2 h3

theorem nodup_dkeys_integrateAll (sy ey : Option Int) :
    ∀ (results : List FetchResult) (out : AggFile),
      (dkeys out).Nodup → (dkeys (integrateAll results sy ey out)).Nodup := by
  intro results
  induction results with
  | nil => intro out h; exact h
  | cons r rest ih =>
    intro out h
    have hstep : (dkeys (integrateAllStep sy ey out r)).Nodup := by
      unfold integrateAllStep
      cases hY : r.year with
      | none => exact h
      | some y' =>
        dsimp only
        by_cases had : r.ad_id = ""
        · rw [if_pos had]; exact h
        · rw [if_neg had]
          by_cases hir : inRange sy ey y' = true
          · rw [if_pos hir]
            exact nodup_dkeys_dictSet out y' _ h
          · rw [if_neg hir]; exact h
    exact ih _ hstep

theorem dkeys_matchesStep (r_index : List (String × FetchResult))
    (sy ey : Option Int) (out : AggFile) (m : Int × List String)
    (h : inRange sy ey m.1 = true → yearHits r_index m.2 ≠ [] →
      m.1 ∈ dkeys out) :
    dkeys (matchesStep r_index sy ey out m) = dkeys out := by
  unfold matchesStep
  by_cases hir : inRange sy ey m.1 = true
  · rw [if_pos hir, integrateYearStep_eq]
    by_cases hv : (applyInner (yearHits r_index m.2)
        ((alookup out m.1).getD [])).isEmpty = true
    · rw [if_pos hv]
    · rw [if_neg hv]
      apply dkeys_dictSet_of_mem
      by_cases hh : yearHits r_index m.2 = []
      · cases halo : alookup out m.1 with
        | none =>
          exfalso
          apply hv
          rw [hh, halo]
          rfl
        | some oa => exact alookup_mem_dkeys out m.1 oa halo
      · exact h hir hh
  · rw [if_neg hir]

theorem dkeys_integrateMatches_of (results : List FetchResult)
    (sy ey : Option Int) :
    ∀ (matchIndex : List (Int × List String)) (out : AggFile),
      (∀ m ∈ matchIndex, inRange sy ey m.1 = true →
        yearHits (buildRIndex results) m.2 ≠ [] → m.1 ∈ dkeys out) →
      dkeys (integrateMatches results matchIndex sy ey out) = dkeys out := by
  intro matchIndex
  induction matchIndex with
  | nil => intro out _; rfl
  | cons m rest ih =>
    intro out h
    have hstep : dkeys (matchesStep (buildRIndex results) sy ey out m) =
        dkeys out :=
      dkeys_matchesStep _ sy ey out m (h m (List.mem_cons_self m rest))
    have hfold : integrateMatches results (m :: rest) sy ey out =
        integrateMatches results rest sy ey
          (matchesStep (buildRIndex results) sy ey out m) := rfl
    rw [hfold, ih _ ?_, hstep]
    intro m' hm' h1 h2
    rw [hstep]
    exact h m' (List.mem_cons_of_mem m hm') h1 h2

theorem nodup_dkeys_integrateMatches (results : List FetchResult)
    (sy ey : Option Int) :
    ∀ (matchIndex : List (Int × List String)) (out : AggFile),
      (dkeys out).Nodup →
      (dkeys (integrateMatches results matchIndex sy ey out)).Nodup := by
  intro matchIndex
  induction matchIndex with
  | nil => intro out h; exact h
  | cons m rest ih =>
    intro out h
    have hstep : (dkeys (matchesStep (buildRIndex results) sy ey out m)).Nodup := by
      unfold matchesStep
      by_cases hir : inRange sy ey m.1 = true
      · rw [if_pos hir, integrateYearStep_eq]
        by_cases hv : (applyInner (yearHits (buildRIndex results) m.2)
            ((alookup out m.1).getD [])).isEmpty = true
        · rw [if_pos hv]; exact h
        · rw [if_neg hv]
          exact nodup_dkeys_dictSet out m.1 _ h
      · rw [if_neg hir]; exact h
    exact ih _ hstep

/-! ## C4 and C5 -/
/-- C4: `integrate` merges: every (year, ad) entry already present in
the aggregated results file whose ad identifier is not among this run's
fetched results keeps exactly its old record in the rewritten file, in
both populations. -/
theorem C4_integrate_preserves (pop : Population) (results : List FetchResult)
    (matchIndex : List (Int × List String)) (sy ey : Option Int)
    (out0 : AggFile) (y : Int) (ad : String) (rec : RRec)
    (hnd : (matchIndex.map Prod.fst).Nodup)
    (had : ∀ r ∈ results, r.ad_id ≠ ad)
    (hfile : (alookup out0 y).bind (fun oa => alookup oa ad) = some rec) :
    (alookup (integrate pop results matchIndex sy ey out0) y).bind
      (fun oa => alookup oa ad) = some rec := by
  rcases h1 : alookup out0 y with _ | oa
  · rw [h1] at hfile; simp at hfile
  rw [h1] at hfile
  simp only [Option.some_bind] at hfile
  cases pop with
  | matchesPop =>
    show (alookup (integrateMatches results matchIndex sy ey out0) y).bind
      (fun oa => alookup oa ad) = some rec
    rw [alookup_integrateMatches results matchIndex sy ey out0 y hnd]
    cases hmi : alookup matchIndex y with
    | none =>
      dsimp only
      rw [h1]
      simpa using hfile
    | some ads =>
      dsimp only
      by_cases hir : inRange sy ey y = true
      · rw [if_pos hir]
        unfold yearResult
        have hnotmem : ad ∉ (yearHits (buildRIndex results) ads).map Prod.fst := by
          intro hmem
          rcases yearHits_keys _ ads ad hmem with ⟨r, hr⟩
          rcases buildRIndex_keys results ad r hr with ⟨r', hr', hid⟩
          exact had r' hr' hid
        split
        · rw [h1]; simpa using hfile
        · rw [h1]
          simp only [Option.getD_some, Option.some_bind]
          rw [alookup_applyInner_not_mem _ _ _ hnotmem]
          exact hfile
      · rw [if_neg hir, h1]
        simpa using hfile
  | allPop =>
    show (alookup (integrateAll results sy ey out0) y).bind
      (fun oa => alookup oa ad) = some rec
    rw [alookup_integrateAll]
    have hnotmem : ad ∉ (allHits results sy ey y).map Prod.fst := by
      intro hmem
      rcases allHits_keys results sy ey y ad hmem with ⟨r', hr', hid⟩
      exact had r' hr' hid
    split
    · rw [h1]; simpa using hfile
    · rw [h1]
      simp only [Option.getD_some, Option.some_bind]
      rw [alookup_applyInner_not_mem _ _ _ hnotmem]
      exact hfile

/-- C4 witness: a concrete merge where year 2014 already holds ad "X"
and the run fetches only ad "Y": the old "X" record survives. -/
theorem C4_integrate_preserves_witness :
    (alookup (integrate Population.matchesPop
        [{ ad_id := "Y", year := none, ai_requirement := "True",
           reason := "", keywords := [] }]
        [(2014, ["Y"])] none none
        [(2014, [("X", { ai_requirement := "Maybe", reason := "r",
                         keywords := [] })])]) 2014).bind
      (fun oa => alookup oa "X") =
      some { ai_requirement := "Maybe", reason := "r", keywords := [] } :=
  C4_integrate_preserves Population.matchesPop
    [{ ad_id := "Y", year := none, ai_requirement := "True",
       reason := "", keywords := [] }]
    [(2014, ["Y"])] none none
    [(2014, [("X", { ai_requirement := "Maybe", reason := "r",
                     keywords := [] })])]
    2014 "X" { ai_requirement := "Maybe", reason := "r", keywords := [] }
    (by decide) (by decide) (by decide)

/-- C5: integrating the same fetched results twice produces exactly the
same aggregated file (contents and entry order) as integrating them
once, for every results list, year filter and starting file state whose
year keys and per-year ad keys are duplicate-free, in both populations. -/
theorem C5_integrate_idempotent (pop : Population) (results : List FetchResult)
    (matchIndex : List (Int × List String)) (sy ey : Option Int)
    (out0 : AggFile)
    (h1 : (matchIndex.map Prod.fst).Nodup)
    (h2 : (dkeys out0).Nodup)
    (h3 : ∀ p ∈ out0, (dkeys p.2).Nodup) :
    integrate pop results matchIndex sy ey
      (integrate pop results matchIndex sy ey out0) =
      integrate pop results matchIndex sy ey out0 := by
  have hinner : ∀ y, (dkeys ((alookup out0 y).getD [])).Nodup := by
    intro y
    cases h : alookup out0 y with
    | none => simp
    | some oa =>
      simp only [Option.getD_some]
      exact h3 (y, oa) (mem_of_alookup out0 y oa h)
  cases pop with
  | allPop =>
    show integrateAll results sy ey (integrateAll results sy ey out0) =
      integrateAll results sy ey out0
    apply alookup_ext
    · apply dkeys_integrateAll_of
      intro r hr y' hY hadne hir
      have hmem : (r.ad_id, mkRRec r) ∈ allHits results sy ey y' :=
        List.mem_filterMap.2 ⟨r, hr, by
          rw [hY]; dsimp only; rw [if_pos ⟨rfl, hadne, hir⟩]⟩
      have hne : ¬ (allHits results sy ey y').isEmpty = true := by
        intro hh
        rw [(isEmpty_true_iff _).1 hh] at hmem
        simp at hmem
      have hchar := alookup_integrateAll results sy ey out0 y'
      rw [if_neg hne] at hchar
      exact alookup_mem_dkeys _ _ _ hchar
    · exact nodup_dkeys_integrateAll sy ey results _
        (nodup_dkeys_integrateAll sy ey results out0 h2)
    · intro y
      rw [alookup_integrateAll results sy ey
        (integrateAll results sy ey out0) y]
      by_cases he : (allHits results sy ey y).isEmpty = true
      · rw [if_pos he]
      · rw [if_neg he]
        have hchar := alookup_integrateAll results sy ey out0 y
        rw [if_neg he] at hchar
        rw [hchar]
        simp only [Option.getD_some]
        rw [applyInner_idem _ _ (hinner y)]
  | matchesPop =>
    show integrateMatches results matchIndex sy ey
        (integrateMatches results matchIndex sy ey out0) =
      integrateMatches results matchIndex sy ey out0
    apply alookup_ext
    · apply dkeys_integrateMatches_of
      intro m hm hir hne
      obtain ⟨y0, ads0⟩ := m
      have hsc : alookup matchIndex y0 = some ads0 :=
        alookup_of_mem_nodup matchIndex y0 ads0 hm h1
      have hchar := alookup_integrateMatches results matchIndex sy ey out0 y0 h1
      rw [hsc] at hchar
      dsimp only at hchar
      rw [if_pos hir] at hchar
      unfold yearResult at hchar
      have hv : ¬ (applyInner (yearHits (buildRIndex results) ads0)
          ((alookup out0 y0).getD [])).isEmpty = true := by
        intro hh
        exact hne (applyInner_eq_nil _ _ ((isEmpty_true_iff _).1 hh)).1
      rw [if_neg hv] at hchar
      exact alookup_mem_dkeys _ _ _ hchar
    · exact nodup_dkeys_integrateMatches results sy ey matchIndex _
        (nodup_dkeys_integrateMatches results sy ey matchIndex out0 h2)
    · intro y
      rw [alookup_integrateMatches results matchIndex sy ey
        (integrateMatches results matchIndex sy ey out0) y h1]
      cases hmi : alookup matchIndex y with
      | none => rfl
      | some ads =>
        dsimp only
        by_cases hir : inRange sy ey y = true
        · rw [if_pos hir]
          have hchar := alookup_integrateMatches results matchIndex sy ey
            out0 y h1
          rw [hmi] at hchar
          dsimp only at hchar
          rw [if_pos hir] at hchar
          unfold yearResult at hchar ⊢
          by_cases hv : (applyInner (yearHits (buildRIndex results) ads)
              ((alookup out0 y).getD [])).isEmpty = true
          · rw [if_pos hv] at hchar
            rw [hchar, if_pos hv]
          · rw [if_neg hv] at hchar
            rw [hchar]
            simp only [Option.getD_some]
            rw [applyInner_idem _ _ (hinner y), if_neg hv]
        · rw [if_neg hir]

/-- C5 witness: the theorem applied to a concrete fetched-results list
and starting file, matches population. -/
theorem C5_integrate_idempotent_witness :
    integrate Population.matchesPop
      [{ ad_id := "Y", year := none, ai_requirement := "yes",
         reason := "ok", keywords := ["k"] }]
      [(2014, ["Y"])] none none
      (integrate Population.matchesPop
        [{ ad_id := "Y", year := none, ai_requirement := "yes",
           reason := "ok", keywords := ["k"] }]
        [(2014, ["Y"])] none none
        [(2014, [("X", { ai_requirement := "True", reason := "",
                         keywords := [] })])]) =
      integrate Population.matchesPop
        [{ ad_id := "Y", year := none, ai_requirement := "yes",
           reason := "ok", keywords := ["k"] }]
        [(2014, ["Y"])] none none
        [(2014, [("X", { ai_requirement := "True", reason := "",
                         keywords := [] })])] :=
  C5_integrate_idempotent Population.matchesPop
    [{ ad_id := "Y", year := none, ai_requirement := "yes",
       reason := "ok", keywords := ["k"] }]
    [(2014, ["Y"])] none none
    [(2014, [("X", { ai_requirement := "True", reason := "",
                     keywords := [] })])]
    (by decide) (by decide) (by decide)

/-! ## Helper lemmas: matchers and the scan -/
theorem sliceEq_iff (t : List Char) (i : Nat) (kw : List Char) :
    sliceEq t i kw = true ↔ (t.drop i).take kw.length = kw := by
  unfold sliceEq
  constructor
  · exact fun h => eq_of_beq h
  · intro h
    rw [h]
    simp

theorem sliceEq_getElem (t : List Char) (i : Nat) (kw : List Char)
    (h : sliceEq t i kw = true) (j : Nat) (hj : j < kw.length) :
    t[i + j]? = kw[j]? := by
  have he := (sliceEq_iff t i kw).1 h
  calc t[i + j]? = (t.drop i)[j]? := (List.getElem?_drop t i j).symm
    _ = ((t.drop i).take kw.length)[j]? := by
        rw [List.getElem?_take, if_pos hj]
    _ = kw[j]? := by rw [he]

theorem sliceEq_le (t : List Char) (i : Nat) (kw : List Char)
    (h : sliceEq t i kw = true) (hne : kw ≠ []) :
    i + kw.length ≤ t.length := by
  have he := (sliceEq_iff t i kw).1 h
  have hlen := congrArg List.length he
  simp only [List.length_take, List.length_drop] at hlen
  have h1 : kw.length ≤ t.length - i := min_eq_left_iff.1 hlen
  have h2 : kw.length ≠ 0 := by
    intro hz
    exact hne (List.length_eq_zero.1 hz)
  omega

theorem matchStandalone_some (kw t : List Char) (i : Nat)
    (h1 : prevOk t i = true) (h2 : sliceEq t i kw = true)
    (h3 : wordCharAt t (i + kw.length) = false) :
    matchStandalone kw t i = some (i + kw.length) := by
  unfold matchStandalone
  rw [if_pos (by rw [h1, h2, h3]; rfl)]

theorem matchStandalone_inv (kw t : List Char) (i e : Nat)
    (h : matchStandalone kw t i = some e) :
    prevOk t i = true ∧ sliceEq t i kw = true ∧
    wordCharAt t (i + kw.length) = false ∧ e = i + kw.length := by
  unfold matchStandalone at h
  split_ifs at h with hc
  · simp only [Bool.and_eq_true, Bool.not_eq_true'] at hc
    injection h with h
    exact ⟨hc.1.1, hc.1.2, hc.2, h.symm⟩

theorem matchCompound_inv (kw t : List Char) (i e : Nat)
    (h : matchCompound kw t i = some e) :
    ∃ c, t[i + kw.length]? = some c ∧ hyphenSlashChars.contains c = true := by
  unfold matchCompound at h
  split_ifs at h with hc
  · simp only [Bool.and_eq_true] at hc
    obtain ⟨-, hm⟩ := hc
    cases ht : t[i + kw.length]? with
    | none => rw [ht] at hm; simp at hm
    | some c =>
      rw [ht] at hm
      exact ⟨c, rfl, hm⟩

theorem matchLowerCont_inv (kw t : List Char) (i e : Nat)
    (h : matchLowerCont kw t i = some e) :
    ∃ c, t[i + kw.length]? = some c ∧ isLowerCont c = true := by
  unfold matchLowerCont at h
  split_ifs at h with hc
  · simp only [Bool.and_eq_true] at hc
    obtain ⟨-, hm⟩ := hc
    cases ht : t[i + kw.length]? with
    | none => rw [ht] at hm; simp at hm
    | some c =>
      rw [ht] at hm
      exact ⟨c, rfl, hm⟩

theorem matchPlural_inv (kw t : List Char) (i e : Nat)
    (h : matchPlural kw t i = some e) :
    t[i + kw.length]? = some 's' ∨ t[i + kw.length]? = some apos ∨
      t[i + kw.length]? = some '’' := by
  unfold matchPlural at h
  split_ifs at h with h1 h2 h3
  · simp only [Bool.and_eq_true, beq_iff_eq] at h2
    exact Or.inl h2.1
  · simp only [Bool.and_eq_true, Bool.or_eq_true, beq_iff_eq] at h3
    rcases h3.1.1 with hh | hh
    · exact Or.inr (Or.inl hh)
    · exact Or.inr (Or.inr hh)

/-- Two standalone matches of an all-word-character keyword cannot
overlap: the earlier one ends at or before the later one's start. -/
theorem standalone_no_overlap (kw t : List Char)
    (hkw : ∀ c ∈ kw, isWordChar c = true) (_hne : kw ≠ [])
    (j j' e e' : Nat) (h : matchStandalone kw t j = some e)
    (h' : matchStandalone kw t j' = some e') (hlt : j' < j) : e' ≤ j := by
  obtain ⟨-, hs, -, he⟩ := matchStandalone_inv kw t j e h
  obtain ⟨-, hs', hw', he'⟩ := matchStandalone_inv kw t j' e' h'
  subst he
  subst he'
  by_contra hcon
  push_neg at hcon
  have hd : j' + kw.length - j < kw.length := by omega
  have hij : j' + kw.length = j + (j' + kw.length - j) := by omega
  have hchar := sliceEq_getElem t j kw hs (j' + kw.length - j) hd
  rw [← hij] at hchar
  cases hk : kw[j' + kw.length - j]? with
  | none =>
    rw [List.getElem?_eq_none_iff] at hk
    omega
  | some c =>
    have hcmem : c ∈ kw := List.getElem?_mem hk
    have : wordCharAt t (j' + kw.length) = true := by
      unfold wordCharAt
      rw [hchar, hk]
      exact hkw c hcmem
    rw [hw'] at this
    cases this

theorem finditerAux_sound (m : Matcher) (t : List Char) :
    ∀ (fuel i a b : Nat), (a, b) ∈ finditerAux m t i fuel →
      m t a = some b ∧ i ≤ a := by
  intro fuel
  induction fuel with
  | zero => intro i a b h; simp [finditerAux] at h
  | succ f ih =>
    intro i a b h
    unfold finditerAux at h
    split_ifs at h with hlen
    · simp at h
    · cases hm : m t i with
      | some e =>
        rw [hm] at h
        rcases List.mem_cons.1 h with h | h
        · injection h with h1 h2
          subst h1
          subst h2
          exact ⟨hm, le_refl a⟩
        · obtain ⟨hma, hia⟩ := ih _ a b h
          exact ⟨hma, by omega⟩
      | none =>
        rw [hm] at h
        obtain ⟨hma, hia⟩ := ih _ a b h
        exact ⟨hma, by omega⟩

theorem finditerAux_complete (m : Matcher) (t : List Char) (j e : Nat)
    (hj : j < t.length) (hm : m t j = some e) :
    ∀ (fuel i : Nat), i ≤ j → t.length + 1 - i ≤ fuel →
      (∀ j' e', i ≤ j' → j' < j → m t j' = some e' → e' ≤ j) →
      (j, e) ∈ finditerAux m t i fuel := by
  intro fuel
  induction fuel with
  | zero => intro i hi hfuel _; omega
  | succ f ih =>
    intro i hi hfuel hno
    unfold finditerAux
    rw [if_neg (by omega)]
    by_cases hij : i = j
    · subst hij
      rw [hm]
      exact List.mem_cons_self _ _
    · cases hmi : m t i with
      | none =>
        exact ih (i + 1) (by omega) (by omega)
          (fun j' e' h1 h2 h3 => hno j' e' (by omega) h2 h3)
      | some e' =>
        have he' : e' ≤ j := hno i e' (le_refl i) (by omega) hmi
        apply List.mem_cons_of_mem
        exact ih (max e' (i + 1)) (by omega) (by omega)
          (fun j' e'' h1 h2 h3 => hno j' e'' (by omega) h2 h3)

theorem dedupSpans_sub (ms : List (Nat × Nat)) :
    ∀ (seen : List (Nat × Nat)) (s : Nat × Nat),
      s ∈ (dedupSpans seen ms).2 → s ∈ ms ∧ s ∉ seen := by
  induction ms with
  | nil => intro seen s h; simp [dedupSpans] at h
  | cons a ss ih =>
    intro seen s h
    unfold dedupSpans at h
    split_ifs at h with ha
    · obtain ⟨h1, h2⟩ := ih seen s h
      exact ⟨List.mem_cons_of_mem a h1, h2⟩
    · rcases List.mem_cons.1 h with h | h
      · subst h
        exact ⟨List.mem_cons_self s ss, ha⟩
      · obtain ⟨h1, h2⟩ := ih (a :: seen) s h
        refine ⟨List.mem_cons_of_mem a h1, fun hs => h2 ?_⟩
        exact List.mem_cons_of_mem a hs

theorem dedupSpans_complete (ms : List (Nat × Nat)) :
    ∀ (seen : List (Nat × Nat)) (s : Nat × Nat), s ∈ ms → s ∉ seen →
      s ∈ (dedupSpans seen ms).2 := by
  induction ms with
  | nil => intro seen s h _; simp at h
  | cons a ss ih =>
    intro seen s h hs
    unfold dedupSpans
    rcases List.mem_cons.1 h with h | h
    · subst h
      rw [if_neg hs]
      exact List.mem_cons_self s _
    · split_ifs with ha
      · exact ih seen s h hs
      · by_cases hsa : s = a
        · subst hsa
          exact List.mem_cons_self s _
        · exact List.mem_cons_of_mem a
            (ih (a :: seen) s h (by simp [hsa, hs]))

theorem dedupSpans_seen (ms : List (Nat × Nat)) :
    ∀ (seen : List (Nat × Nat)) (s : Nat × Nat),
      s ∈ (dedupSpans seen ms).1 ↔ s ∈ seen ∨ s ∈ ms := by
  induction ms with
  | nil => intro seen s; simp [dedupSpans]
  | cons a ss ih =>
    intro seen s
    unfold dedupSpans
    split_ifs with ha
    · rw [ih seen s]
      constructor
      · rintro (h | h)
        · exact Or.inl h
        · exact Or.inr (List.mem_cons_of_mem a h)
      · rintro (h | h)
        · exact Or.inl h
        · rcases List.mem_cons.1 h with h | h
          · subst h; exact Or.inl ha
          · exact Or.inr h
    · rw [ih (a :: seen) s]
      constructor
      · rintro (h | h)
        · rcases List.mem_cons.1 h with h | h
          · subst h; exact Or.inr (List.mem_cons_self s ss)
          · exact Or.inl h
        · exact Or.inr (List.mem_cons_of_mem a h)
      · rintro (h | h)
        · exact Or.inl (List.mem_cons_of_mem a h)
        · rcases List.mem_cons.1 h with h | h
          · subst h; exact Or.inl (List.mem_cons_self s seen)
          · exact Or.inr h

theorem dedupSpans_nodup (ms : List (Nat × Nat)) :
    ∀ (seen : List (Nat × Nat)), (dedupSpans seen ms).2.Nodup := by
  induction ms with
  | nil => intro seen; simp [dedupSpans]
  | cons a ss ih =>
    intro seen
    unfold dedupSpans
    split_ifs with ha
    · exact ih seen
    · rw [List.nodup_cons]
      refine ⟨fun hmem => ?_, ih (a :: seen)⟩
      obtain ⟨-, h2⟩ := dedupSpans_sub ss (a :: seen) a hmem
      exact h2 (List.mem_cons_self a seen)

theorem emitSpansFrom_not_mem_seen (norm : List Char) :
    ∀ (ps : List Matcher) (seen : List (Nat × Nat)) (s : Nat × Nat),
      s ∈ emitSpansFrom norm seen ps → s ∉ seen := by
  intro ps
  induction ps with
  | nil => intro seen s h; simp [emitSpansFrom] at h
  | cons p rest ih =>
    intro seen s h
    unfold emitSpansFrom at h
    rcases List.mem_append.1 h with h | h
    · exact (dedupSpans_sub _ seen s h).2
    · intro hs
      exact ih _ s h ((dedupSpans_seen _ seen s).2 (Or.inl hs))

theorem emitSpansFrom_nodup (norm : List Char) :
    ∀ (ps : List Matcher) (seen : List (Nat × Nat)),
      (emitSpansFrom norm seen ps).Nodup := by
  intro ps
  induction ps with
  | nil => intro seen; simp [emitSpansFrom]
  | cons p rest ih =>
    intro seen
    unfold emitSpansFrom
    refine (dedupSpans_nodup _ seen).append (ih _) ?_
    intro s hs hmem
    have h1 : s ∈ (dedupSpans seen (finditer p norm)).1 :=
      (dedupSpans_seen _ seen s).2
        (Or.inr (dedupSpans_sub _ seen s hs).1)
    exact emitSpansFrom_not_mem_seen norm rest _ s hmem h1

theorem emitSpansFrom_sound (norm : List Char) :
    ∀ (ps : List Matcher) (seen : List (Nat × Nat)) (s : Nat × Nat),
      s ∈ emitSpansFrom norm seen ps →
      ∃ p ∈ ps, p norm s.1 = some s.2 := by
  intro ps
  induction ps with
  | nil => intro seen s h; simp [emitSpansFrom] at h
  | cons p rest ih =>
    intro seen s h
    unfold emitSpansFrom at h
    rcases List.mem_append.1 h with h | h
    · have hfin : s ∈ finditer p norm := (dedupSpans_sub _ seen s h).1
      obtain ⟨a, b⟩ := s
      obtain ⟨hma, -⟩ := finditerAux_sound p norm _ 0 a b hfin
      exact ⟨p, List.mem_cons_self p rest, hma⟩
    · obtain ⟨p', hp', hm⟩ := ih _ s h
      exact ⟨p', List.mem_cons_of_mem p hp', hm⟩

theorem emitSpans_first (norm : List Char) (p : Matcher) (ps : List Matcher)
    (s : Nat × Nat) (h : s ∈ finditer p norm) :
    s ∈ emitSpans (p :: ps) norm := by
  unfold emitSpans emitSpansFrom
  exact List.mem_append_left _
    (dedupSpans_complete _ [] s h (by simp))

theorem abbrevPatterns_mem (kw : List Char) (p : Matcher)
    (hp : p ∈ abbrevPatterns kw) :
    p = matchStandalone kw ∨ p = matchCompound kw ∨ p = matchLowerCont kw ∨
      (kw = "LLM".data ∧ p = matchPlural kw) := by
  unfold abbrevPatterns at hp
  rcases List.mem_append.1 hp with h | h
  · rcases List.mem_cons.1 h with h | h
    · exact Or.inl h
    rcases List.mem_cons.1 h with h | h
    · exact Or.inr (Or.inl h)
    rcases List.mem_cons.1 h with h | h
    · exact Or.inr (Or.inr (Or.inl h))
    · simp at h
  · by_cases hllm : kw = "LLM".data
    · rw [if_pos hllm] at h
      rcases List.mem_cons.1 h with h | h
      · exact Or.inr (Or.inr (Or.inr ⟨hllm, h⟩))
      · simp at h
    · rw [if_neg hllm] at h
      simp at h

theorem normalizeDashes_cons (c : Char) (t : List Char) :
    normalizeDashes (c :: t) =
      normalizeDashes [c] ++ normalizeDashes t := rfl

theorem normalizeDashes_single (c : Char) :
    normalizeDashes [c] = [normChar c] := by
  by_cases h1 : c = '‐'
  · subst h1; decide
  by_cases h2 : c = '‑'
  · subst h2; decide
  by_cases h3 : c = '‒'
  · subst h3; decide
  by_cases h4 : c = '–'
  · subst h4; decide
  by_cases h5 : c = '—'
  · subst h5; decide
  by_cases h6 : c = '−'
  · subst h6; decide
  have hch : normalizeDashes [c] = [c] := by
    simp [normalizeDashes, replaceChar, h1, h2, h3, h4, h5, h6]
  rw [hch]
  simp [normChar, dashVariants, h1, h2, h3, h4, h5, h6]

theorem normalizeDashes_eq_map (t : List Char) :
    normalizeDashes t = t.map normChar := by
  induction t with
  | nil => rfl
  | cons c t ih =>
    rw [normalizeDashes_cons, normalizeDashes_single, ih]
    rfl

/-- C2 counterexample: on the text "LLMs" the variant patterns of the
keyword LLM match the two distinct but overlapping spans (0,3) (the
lowercase-continuation variant) and (0,4) (the plural variant); both
survive the dedup, so one occurrence yields two match records - the
claimed deduplication of overlapping spans does not happen, only exact
duplicates are dropped. -/
theorem C2_counterexample :
    emitSpans (abbrevPatterns "LLM".data) "LLMs".data = [(0, 3), (0, 4)] ∧
    (find_matches_with_context "LLMs".data
      [("LLM", abbrevPatterns "LLM".data)] 60).length = 2 := by
  constructor
  · decide
  · decide

/-- C2 (amended): within one keyword the scanner deduplicates emitted
spans by exact (start, end) equality - the emitted span list never
contains the same span twice - and every emitted span is an actual
match of one of the keyword's variant patterns; overlapping but unequal
spans are each emitted. -/
theorem C2_span_dedup (pats : List Matcher) (norm : List Char) :
    (emitSpans pats norm).Nodup ∧
    ∀ s ∈ emitSpans pats norm, ∃ p ∈ pats, p norm s.1 = some s.2 := by
  constructor
  · exact emitSpansFrom_nodup norm pats []
  · intro s hs
    exact emitSpansFrom_sound norm pats [] s hs

/-- C2 witness: the amended theorem instantiated on the keyword AI and
the text "AI". -/
theorem C2_span_dedup_witness :
    (emitSpans (abbrevPatterns "AI".data) "AI".data).Nodup ∧
    ∃ p ∈ abbrevPatterns "AI".data, p "AI".data 0 = some 2 :=
  ⟨(C2_span_dedup (abbrevPatterns "AI".data) "AI".data).1,
    (C2_span_dedup (abbrevPatterns "AI".data) "AI".data).2 (0, 2) (by decide)⟩

/-- C3: for each keyword in {AI, KI, LLM}, a standalone occurrence (not
preceded and not followed by a word character) is always emitted as a
match span for that keyword; and an occurrence immediately followed by
an ASCII uppercase letter (a prefix of a longer uppercase word, such as
"AIM") starts no emitted match span at that position. -/
theorem C3_standalone_and_uppercase (kw : List Char)
    (hkw : kw ∈ [ "AI".data, "KI".data, "LLM".data ]) (t : List Char)
    (i : Nat) :
    (prevOk t i = true → sliceEq t i kw = true →
      wordCharAt t (i + kw.length) = false →
      (i, i + kw.length) ∈ emitSpans (abbrevPatterns kw) t) ∧
    (∀ c, t[i + kw.length]? = some c → c ∈ upperAscii →
      sliceEq t i kw = true →
      ∀ b, (i, b) ∉ emitSpans (abbrevPatterns kw) t) := by
  have hkw3 : kw = "AI".data ∨ kw = "KI".data ∨ kw = "LLM".data := by
    simpa using hkw
  have hkwword : ∀ c ∈ kw, isWordChar c = true := by
    rcases hkw3 with rfl | rfl | rfl <;> decide
  have hne : kw ≠ [] := by
    rcases hkw3 with rfl | rfl | rfl <;> decide
  have hlenpos : kw.length ≠ 0 := fun hz => hne (List.length_eq_zero.1 hz)
  constructor
  · intro h1 h2 h3
    have hm : matchStandalone kw t i = some (i + kw.length) :=
      matchStandalone_some kw t i h1 h2 h3
    have hi : i < t.length := by
      have := sliceEq_le t i kw h2 hne
      omega
    have hfind : (i, i + kw.length) ∈ finditer (matchStandalone kw) t := by
      unfold finditer
      apply finditerAux_complete (matchStandalone kw) t i (i + kw.length)
        hi hm (t.length + 1) 0 (by omega) (by omega)
      intro j' e' _ hj' hm'
      exact standalone_no_overlap kw t hkwword hne i j' _ e' hm hm' hj'
    exact emitSpans_first t (matchStandalone kw) _ _ hfind
  · intro c hc hupper hslice b hmem
    have hfacts : ∀ c' ∈ upperAscii, isWordChar c' = true ∧
        hyphenSlashChars.contains c' = false ∧ isLowerCont c' = false ∧
        c' ≠ 's' ∧ c' ≠ apos ∧ c' ≠ '’' := by decide
    obtain ⟨hf1, hf2, hf3, hf4, hf5, hf6⟩ := hfacts c hupper
    obtain ⟨p, hp, hmatch⟩ :=
      emitSpansFrom_sound t (abbrevPatterns kw) [] (i, b) hmem
    simp only at hmatch
    rcases abbrevPatterns_mem kw p hp with rfl | rfl | rfl | ⟨hllm, rfl⟩
    · obtain ⟨-, -, hw, -⟩ := matchStandalone_inv kw t i b hmatch
      unfold wordCharAt at hw
      rw [hc] at hw
      dsimp only at hw
      rw [hf1] at hw
      cases hw
    · obtain ⟨c', hc', hcont⟩ := matchCompound_inv kw t i b hmatch
      rw [hc] at hc'
      injection hc' with hc'
      subst hc'
      rw [hf2] at hcont
      cases hcont
    · obtain ⟨c', hc', hcont⟩ := matchLowerCont_inv kw t i b hmatch
      rw [hc] at hc'
      injection hc' with hc'
      subst hc'
      rw [hf3] at hcont
      cases hcont
    · rcases matchPlural_inv kw t i b hmatch with hh | hh | hh
      · rw [hc] at hh
        injection hh with hh
        exact hf4 hh
      · rw [hc] at hh
        injection hh with hh
        exact hf5 hh
      · rw [hc] at hh
        injection hh with hh
        exact hf6 hh

/-- C3 witness: the theorem applied to the standalone occurrence of AI
in "my AI x" and to the uppercase continuation "AIM". -/
theorem C3_standalone_and_uppercase_witness :
    (3, 5) ∈ emitSpans (abbrevPatterns "AI".data) "my AI x".data ∧
    ∀ b, (0, b) ∉ emitSpans (abbrevPatterns "AI".data) "AIM".data := by
  constructor
  · exact (C3_standalone_and_uppercase "AI".data (by decide)
      "my AI x".data 3).1 (by decide) (by decide) (by decide)
  · exact (C3_standalone_and_uppercase "AI".data (by decide)
      "AIM".data 0).2 'M' (by decide) (by decide) (by decide)

/-- C10: hyphen normalization maps each of the six Unicode dash
variants to an ASCII hyphen character by character, so it preserves the
text's length and all positions; and every emitted match record's
snippet is cut from the original (unnormalized) text at exactly the
span matched in the normalized text, with at most the context width of
characters on each side. -/
theorem C10_normalization_and_snippets (t : List Char)
    (patterns : List (String × List Matcher)) (ctx : Nat) (rec : MatchRec)
    (h : rec ∈ find_matches_with_context t patterns ctx) :
    (normalizeDashes t).length = t.length ∧
    normalizeDashes t = t.map normChar ∧
    ∃ kw pats a b, (kw, pats) ∈ patterns ∧
      (a, b) ∈ emitSpans pats (normalizeDashes t) ∧
      rec.text = (t.take a).drop (a - ctx) ++
        '«' :: ((t.drop a).take (b - a) ++ '»' :: (t.drop b).take ctx) ∧
      ((t.take a).drop (a - ctx)).length ≤ ctx ∧
      ((t.drop b).take ctx).length ≤ ctx := by
  refine ⟨by rw [normalizeDashes_eq_map]; simp, normalizeDashes_eq_map t, ?_⟩
  unfold find_matches_with_context at h
  obtain ⟨⟨kw, pats⟩, hp, hrec⟩ := List.mem_flatMap.1 h
  obtain ⟨⟨a, b⟩, hs, heq⟩ := List.mem_map.1 hrec
  refine ⟨kw, pats, a, b, hp, hs, ?_, ?_, ?_⟩
  · rw [← heq]
    rfl
  · have h1 : (t.take a).length = min a t.length := List.length_take a t
    have h2 : min a t.length ≤ a := min_le_left a t.length
    simp only [List.length_drop, h1]
    omega
  · have h1 : ((t.drop b).take ctx).length = min ctx (t.drop b).length :=
      List.length_take ctx (t.drop b)
    have h2 : min ctx (t.drop b).length ≤ ctx := min_le_left _ _
    omega

/-- C10 witness: the theorem applied to the text "AI–x" (with an
en dash), whose single emitted record matches the compound/standalone
span (0,2) of the normalized text. -/
theorem C10_normalization_and_snippets_witness :
    (normalizeDashes "AI–x".data).length = "AI–x".data.length ∧
    normalizeDashes "AI–x".data = "AI–x".data.map normChar ∧
    ∃ kw pats a b,
      (kw, pats) ∈ [("AI", abbrevPatterns "AI".data)] ∧
      (a, b) ∈ emitSpans pats (normalizeDashes "AI–x".data) ∧
      (mkMatchRec "AI" "AI–x".data 60 0 2).text =
        ("AI–x".data.take a).drop (a - 60) ++
        '«' :: (("AI–x".data.drop a).take (b - a) ++
          '»' :: ("AI–x".data.drop b).take 60) ∧
      (("AI–x".data.take a).drop (a - 60)).length ≤ 60 ∧
      (("AI–x".data.drop b).take 60).length ≤ 60 :=
  C10_normalization_and_snippets "AI–x".data
    [("AI", abbrevPatterns "AI".data)] 60
    (mkMatchRec "AI" "AI–x".data 60 0 2) (by decide)

/-! ## Helper lemmas: exposure gaps -/
theorem length_insertSorted (a : String) (l : List String) :
    (insertSorted a l).length = l.length + 1 := by
  induction l with
  | nil => rfl
  | cons b bs ih =>
    unfold insertSorted
    split_ifs
    · simp
    · simp [ih]

theorem length_sortStrings (l : List String) :
    (sortStrings l).length = l.length := by
  induction l with
  | nil => rfl
  | cons a as ih =>
    unfold sortStrings at ih ⊢
    simp [List.foldr_cons, length_insertSorted, ih]

theorem sortStrings_ne_nil (l : List String) (h : l ≠ []) :
    sortStrings l ≠ [] := by
  intro hc
  have := length_sortStrings l
  rw [hc] at this
  simp at this
  exact h (List.length_eq_zero.1 this.symm)

theorem sortedUnique_ne_nil (l : List String) (h : l ≠ []) :
    sortedUnique l ≠ [] := by
  unfold sortedUnique
  apply sortStrings_ne_nil
  intro hc
  exact h ((List.dedup_eq_nil l).1 hc)

theorem mergedGroup_all_none (expo : List (String × Option ℚ))
    (group : List CWRow)
    (h : ∀ r ∈ group, ∀ e ∈ expo, e.1 = r.soc → e.2 = none) :
    ∀ p ∈ mergedGroup expo group, p.2 = none := by
  intro p hp
  unfold mergedGroup at hp
  obtain ⟨r, hr, hmem⟩ := List.mem_flatMap.1 hp
  by_cases he : (expo.filter (fun e => e.1 == r.soc)).isEmpty
  · rw [if_pos he] at hmem
    simp at hmem
    rw [hmem]
  · rw [if_neg he] at hmem
    obtain ⟨e, hef, hemap⟩ := List.mem_map.1 hmem
    have h1 : e.1 = r.soc := eq_of_beq (List.mem_filter.1 hef).2
    have h2 : e ∈ expo := (List.mem_filter.1 hef).1
    rw [← hemap]
    exact h r hr e h2 h1

/-- C8: an ISCO code present in the crosswalk none of whose mapped SOC
codes carries an exposure value gets an occupation-lookup entry whose
exposure is null (None, in particular not zero) and whose missing list
is its full sorted SOC-code list, and it appears in the exposure-gap
report with exactly that list of missing SOC children. -/
theorem C8_occupation_gap (crosswalk : List CWRow)
    (expo : List (String × Option ℚ)) (isco : String)
    (hgrp : crosswalk.filter (fun r => r.isco == isco) ≠ [])
    (hnone : ∀ r ∈ crosswalk, r.isco = isco →
      ∀ e ∈ expo, e.1 = r.soc → e.2 = none) :
    ∃ entry, occEntryFor crosswalk expo isco = some entry ∧
      entry.aioe = none ∧ entry.aioe ≠ some 0 ∧
      entry.missing_soc_codes = entry.soc_codes ∧
      entry.soc_codes ≠ [] ∧
      occGapFor crosswalk expo isco = some entry.soc_codes := by
  have hgmem : ∀ r ∈ crosswalk.filter (fun r => r.isco == isco),
      r.isco = isco :=
    fun r hr => eq_of_beq (List.mem_filter.1 hr).2
  have hmerged : ∀ p ∈ mergedGroup expo
      (crosswalk.filter (fun r => r.isco == isco)), p.2 = none :=
    mergedGroup_all_none expo _
      (fun r hr e he h1 =>
        hnone r (List.mem_filter.1 hr).1 (hgmem r hr) e he h1)
  have havail : availRows expo (crosswalk.filter (fun r => r.isco == isco)) = [] := by
    unfold availRows
    apply List.filter_eq_nil_iff.2
    intro p hp
    rw [hmerged p hp]
    simp
  have hentry : occEntryFor crosswalk expo isco =
      some (summariseISCO expo (crosswalk.filter (fun r => r.isco == isco))) := by
    unfold occEntryFor
    rw [if_neg (by
      intro hc
      exact hgrp ((isEmpty_true_iff _).1 hc))]
  have haioe : (summariseISCO expo
      (crosswalk.filter (fun r => r.isco == isco))).aioe = none := by
    unfold summariseISCO
    rw [havail]
    rfl
  have hmiss : (summariseISCO expo
      (crosswalk.filter (fun r => r.isco == isco))).missing_soc_codes =
      (summariseISCO expo
        (crosswalk.filter (fun r => r.isco == isco))).soc_codes := by
    unfold summariseISCO
    dsimp only
    rw [havail]
    simp [sortedUnique, sortStrings]
  have hsoc : (summariseISCO expo
      (crosswalk.filter (fun r => r.isco == isco))).soc_codes ≠ [] := by
    unfold summariseISCO
    apply sortedUnique_ne_nil
    intro hc
    exact hgrp (List.map_eq_nil_iff.1 hc)
  refine ⟨summariseISCO expo (crosswalk.filter (fun r => r.isco == isco)),
    hentry, haioe, by rw [haioe]; simp, hmiss, hsoc, ?_⟩
  unfold occGapFor
  rw [hentry]
  dsimp only
  rw [hmiss]
  rw [if_neg (by
    intro hc
    exact hsoc ((isEmpty_true_iff _).1 hc))]

/-- C8 witness: the theorem applied to a one-row crosswalk whose SOC
code has no exposure value. -/
theorem C8_occupation_gap_witness :
    ∃ entry, occEntryFor [⟨"11-1011", "1112", false⟩]
        [("99-0000", some 1)] "1112" = some entry ∧
      entry.aioe = none ∧ entry.aioe ≠ some 0 ∧
      entry.missing_soc_codes = entry.soc_codes ∧
      entry.soc_codes ≠ [] ∧
      occGapFor [⟨"11-1011", "1112", false⟩]
        [("99-0000", some 1)] "1112" = some entry.soc_codes :=
  C8_occupation_gap [⟨"11-1011", "1112", false⟩]
    [("99-0000", some 1)] "1112" (by decide)
    (by
      intro r hr h1 e he h2
      simp only [List.mem_singleton] at hr he
      subst hr
      subst he
      simp at h2)

end Thesis
